import Mathlib

/-!
# tcache: wire codec, LRU cache core and server handlers

A shallow embedding of the Go sources

* `transport/server.go`: `EncodeItem`, `ParseItem`, the handlers `get`, `set`, `del`,
  `getkeys`;
* `cache/lru/lru.go`: `NewCache`, `Add`, `RemoveOldest`, `removeElement`, `Get`, `Remove`,
  `Len`, `Keys`;
* `client/client.go`: the decoding in `Client.Keys`, the tail of `Client.rpc`, and the pool:
  `newPool`, `pool.get`, `pool.put`, `pool.remove`, the body of the loop of `pool.run`.

Conventions of the embedding.

* A byte is a `Fin 256`; a Go `[]byte` and a Go `string` are both `List Byte`.
* `uint16`, `uint32` are natural numbers, reduced modulo `2^16`, `2^32` at every conversion the
  source performs (`uint16(len(key))`, `uint32(len(value.Value))`, `byte(v >> 8)`).
* Go's `int` is taken to be 64 bits wide and is embedded in `Int`; the sums
  `int(h.KeyLen) + int(h.ValueLen)` and `ItemHeaderSize + len(key) + len(value.Value)` then never
  wrap. The counter `MaxEntries` is kept in `Int` by `Cache.Add`, `Cache.removeElement` and
  `Cache.Remove`, which is the program as long as the counter stays inside the 64-bit range;
  `Wrapping.Add`, `Wrapping.removeElement` and `Wrapping.Remove` are the same methods with the
  64-bit wrap, for the bounds at which the counter leaves that range.
* A run-time panic (index or slice bound out of range) is the fault `Fault.outOfRange`; a Go
  `error` value is the fault `Fault.error msg`.
* `time.Now().UTC().Unix()` is a parameter `now : Int` of the handlers.
* `cache.LockCache` only brackets each call with a lock; in a sequential run it is the identity
  wrapper, so the handlers are stated directly over the LRU cache.
* The pool is run by one caller at a time; the result of `net.Dial`, the clock and the case of
  a blocking `select` that becomes ready first are arguments of the call. `int32` counters
  wrap as in Go.
-/

set_option linter.dupNamespace false

namespace Tcache

/-! ## Bytes, faults, slices -/

/-- A byte of a Go `[]byte` or `string`. -/
abbrev Byte := Fin 256

/-- Go conversion `byte(n)`: keep the low eight bits. -/
def byte (n : Nat) : Byte := ⟨n % 256, Nat.mod_lt n (by decide)⟩

/-- How a Go call can fail: by returning an `error` value, or by a run-time panic on an index or
slice bound that is out of range. -/
inductive Fault where
  | error (msg : String)
  | outOfRange
  deriving DecidableEq, Repr

instance instDecidableEqExcept {ε α : Type} [DecidableEq ε] [DecidableEq α] :
    DecidableEq (Except ε α)
  | .ok a, .ok b => if h : a = b then isTrue (by rw [h]) else isFalse (by simpa using h)
  | .error a, .error b => if h : a = b then isTrue (by rw [h]) else isFalse (by simpa using h)
  | .ok _, .error _ => isFalse (by simp)
  | .error _, .ok _ => isFalse (by simp)

/-- Slice expression `b[i:]`; panics when `i > len(b)`. -/
def sliceFrom (b : List Byte) (i : Nat) : Except Fault (List Byte) :=
  if i ≤ b.length then .ok (b.drop i) else .error .outOfRange

/-- Slice expression `b[:j]`; panics when `j` exceeds the slice (the capacity is taken to be the
length, which can only add panics). -/
def sliceTo (b : List Byte) (j : Nat) : Except Fault (List Byte) :=
  if j ≤ b.length then .ok (b.take j) else .error .outOfRange

/-- Builtin `make([]byte, n)`: `n` zero bytes. -/
def make (n : Nat) : List Byte := List.replicate n 0

/-- Builtin `copy(dst, src)`: overwrites the first `min (len dst) (len src)` bytes of `dst`. -/
def copy (dst src : List Byte) : List Byte :=
  src.take dst.length ++ dst.drop src.length

/-- Statement `copy(dst[off:], src)` seen from `dst` (with `off ≤ len dst`). -/
def copyAt (dst : List Byte) (off : Nat) (src : List Byte) : List Byte :=
  dst.take off ++ copy (dst.drop off) src

/-! ## `encoding/binary`, big endian -/

namespace BigEndian

/-- `binary.BigEndian.Uint16(b)`. -/
def Uint16 (b : List Byte) : Except Fault Nat :=
  match b with
  | b0 :: b1 :: _ => .ok (b1.val ||| (b0.val <<< 8))
  | _ => .error .outOfRange

/-- `binary.BigEndian.Uint32(b)`. -/
def Uint32 (b : List Byte) : Except Fault Nat :=
  match b with
  | b0 :: b1 :: b2 :: b3 :: _ =>
    .ok (b3.val ||| (b2.val <<< 8) ||| (b1.val <<< 16) ||| (b0.val <<< 24))
  | _ => .error .outOfRange

/-- `binary.BigEndian.PutUint16(b[off:], v)` seen from `b`; the buffer is long enough at every
call site. -/
def PutUint16 (b : List Byte) (off : Nat) (v : Nat) : List Byte :=
  (b.set off (byte (v >>> 8))).set (off + 1) (byte v)

/-- `binary.BigEndian.PutUint32(b[off:], v)` seen from `b`; the buffer is long enough at every
call site. -/
def PutUint32 (b : List Byte) (off : Nat) (v : Nat) : List Byte :=
  (((b.set off (byte (v >>> 24))).set (off + 1) (byte (v >>> 16))).set (off + 2)
    (byte (v >>> 8))).set (off + 3) (byte v)

end BigEndian

/-! ## Items (`transport/server.go`) -/

/-- A key: a Go `string`, i.e. a byte sequence. -/
abbrev Key := List Byte

/-- Modelled from the spec: the declaration of `cache.Value` is not among the sources; the spec
gives `{ expired: u32, payload: byte-sequence }` and the code reads the fields `Expired`
(a `uint32`) and `Value` (a `[]byte`). -/
structure Value where
  Expired : Nat
  Value : List Byte
  deriving DecidableEq, Repr

/-- The zero `cache.Value`, what a Go function returns for an unset result. -/
def zeroValue : Value := ⟨0, []⟩

/-- Constant `ItemHeaderSize`. -/
def ItemHeaderSize : Nat := 10

/-- Constant `OperationHeaderSize`. -/
def OperationHeaderSize : Nat := 5

/-- Message of `ErrSetItemSizeTooSmall`. -/
def ErrSetItemSizeTooSmall : Fault := .error "set item size too small"

/-- Function `EncodeItem`. -/
def EncodeItem (key : Key) (value : Value) : List Byte :=
  let buf := make (ItemHeaderSize + key.length + value.Value.length)
  let buf := BigEndian.PutUint32 buf 0 (value.Expired % 2 ^ 32)
  let buf := BigEndian.PutUint16 buf 4 (key.length % 2 ^ 16)
  let buf := BigEndian.PutUint32 buf 6 (value.Value.length % 2 ^ 32)
  let buf := copyAt buf ItemHeaderSize key
  let buf := copyAt buf (ItemHeaderSize + key.length) value.Value
  buf

/-- Type `ItemHeader`. -/
structure ItemHeader where
  Expired : Nat
  ValueLen : Nat
  KeyLen : Nat
  deriving DecidableEq, Repr

/-- Function `ParseItem`. -/
def ParseItem (data : List Byte) : Except Fault (Key × Value) :=
  if data.length < ItemHeaderSize then
    .error ErrSetItemSizeTooSmall
  else do
    let expired ← BigEndian.Uint32 data
    let keyLen ← (sliceFrom data 4) >>= BigEndian.Uint16
    let valueLen ← (sliceFrom data 6) >>= BigEndian.Uint32
    let h : ItemHeader := { Expired := expired, KeyLen := keyLen, ValueLen := valueLen }
    let data ← sliceFrom data ItemHeaderSize
    if data.length ≠ h.KeyLen + h.ValueLen then
      .error ErrSetItemSizeTooSmall
    else do
      let key ← sliceTo data h.KeyLen
      let src ← sliceFrom data h.KeyLen
      let v : Value := { Expired := h.Expired, Value := copy (make h.ValueLen) src }
      .ok (key, v)


/-! ## The LRU cache (`cache/lru/lru.go`)

`container/list` elements live in an arena: a `*list.Element` is the index of its cell in
`heap`, the cell holds the element's `Value` (an `entry`), and the list itself is the sequence
of the handles currently linked, front first.  An element taken out of the list keeps its cell,
as a removed `*list.Element` keeps its `Value` in Go. -/

/-- Type `entry`. -/
structure entry where
  key : Key
  value : Value
  deriving DecidableEq, Repr

/-- Type `Cache`: the bound `MaxEntries`, the recency list `l` (handles, front first), the map
`m` from keys to handles (an association list with at most one pair per key), and the arena
`heap` of element cells. -/
structure Cache where
  MaxEntries : Int
  l : List Nat
  m : List (Key × Nat)
  heap : List entry
  deriving DecidableEq, Repr

/-- Map read `m[key]` in its two-result form: the handle when the key is there. -/
def mapLookup (m : List (Key × Nat)) (key : Key) : Option Nat :=
  match m with
  | [] => none
  | (k, e) :: rest => if k = key then some e else mapLookup rest key

/-- Builtin `delete(m, key)`. -/
def mapDelete (m : List (Key × Nat)) (key : Key) : List (Key × Nat) :=
  m.filter (fun p => decide (p.1 ≠ key))

/-- Map write `m[key] = e`. -/
def mapInsert (m : List (Key × Nat)) (key : Key) (e : Nat) : List (Key × Nat) :=
  (key, e) :: mapDelete m key

/-- Read of `e.Value.(entry)` through the handle `e`; a handle the arena never issued reads as
the zero entry (no operation below produces such a handle). -/
def deref (heap : List entry) (e : Nat) : entry :=
  heap.getD e ⟨[], zeroValue⟩

/-- Method `(*list.List).MoveToFront`: nothing happens when the element is not linked in the
list. -/
def MoveToFront (l : List Nat) (e : Nat) : List Nat :=
  if e ∈ l then e :: l.erase e else l

/-- Function `NewCache`. -/
def NewCache (maxEntries : Int) : Cache :=
  { MaxEntries := maxEntries, l := [], m := [], heap := [] }

/-- Method `Cache.removeElement`. -/
def Cache.removeElement (c : Cache) (e : Nat) : Cache :=
  let l := c.l.erase e
  let kv := deref c.heap e
  { c with l := l, m := mapDelete c.m kv.key, MaxEntries := c.MaxEntries - 1 }

/-- Method `Cache.RemoveOldest`. -/
def Cache.RemoveOldest (c : Cache) : Cache :=
  match c.l.getLast? with
  | some ele => c.removeElement ele
  | none => c

/-- Method `Cache.Add`. -/
def Cache.Add (c : Cache) (key : Key) (value : Value) : Cache :=
  match mapLookup c.m key with
  | some ee =>
    let l := MoveToFront c.l ee
    let e := deref c.heap ee
    let e := { e with value := value }
    { c with l := l, heap := c.heap.set ee e }
  | none =>
    let ele := c.heap.length
    let c : Cache :=
      { MaxEntries := c.MaxEntries + 1
        l := ele :: c.l
        m := mapInsert c.m key ele
        heap := c.heap ++ [⟨key, value⟩] }
    if c.MaxEntries ≠ 0 ∧ (c.l.length : Int) < c.MaxEntries then c.RemoveOldest else c

/-- Method `Cache.Get`: the cache after the call, the value and the `ok` flag. -/
def Cache.Get (c : Cache) (key : Key) : Cache × Value × Bool :=
  match mapLookup c.m key with
  | some ele =>
    let l := MoveToFront c.l ele
    let e := deref c.heap ele
    ({ c with l := l }, e.value, true)
  | none => (c, zeroValue, false)

/-- Method `Cache.Remove`. -/
def Cache.Remove (c : Cache) (key : Key) : Cache :=
  match mapLookup c.m key with
  | some ele =>
    let c := c.removeElement ele
    { c with MaxEntries := c.MaxEntries - 1 }
  | none => c

/-- Method `Cache.Len`. -/
def Cache.Len (c : Cache) : Nat := c.l.length

/-- Method `Cache.Keys`; the order in which Go ranges over a map is not fixed, the model lists
the keys in the order of the association list. -/
def Cache.Keys (c : Cache) : List Key := c.m.map Prod.fst

/-- One call on the cache, for runs of calls. -/
inductive Call where
  | Add (key : Key) (value : Value)
  | Get (key : Key)
  | Remove (key : Key)
  | RemoveOldest
  deriving DecidableEq, Repr

/-- The cache after one call. -/
def Cache.step (c : Cache) : Call → Cache
  | .Add key value => c.Add key value
  | .Get key => (c.Get key).1
  | .Remove key => c.Remove key
  | .RemoveOldest => c.RemoveOldest

/-- The cache after a sequence of calls, first call first. -/
def Cache.run (c : Cache) (calls : List Call) : Cache := calls.foldl Cache.step c

/-! ### The counter `MaxEntries` as a 64-bit `int`

The methods above keep `MaxEntries` in `Int`. The methods below are the same statements of
`lru.go` with `c.MaxEntries++` and `c.MaxEntries--` wrapping as Go's 64-bit `int` does; the two
agree on every call made while the counter is between `MinInt64 + 2` and `MaxInt64 - 1`. -/

/-- Arithmetic of Go's `int` on a 64-bit platform: two's complement wrap. -/
def int64 (n : Int) : Int :=
  (n + 9223372036854775808) % 18446744073709551616 - 9223372036854775808

/-- Method `Cache.removeElement`, the decrement wrapping. -/
def Wrapping.removeElement (c : Cache) (e : Nat) : Cache :=
  let l := c.l.erase e
  let kv := deref c.heap e
  { c with l := l, m := mapDelete c.m kv.key, MaxEntries := int64 (c.MaxEntries - 1) }

/-- Method `Cache.RemoveOldest`, over the wrapping `removeElement`. -/
def Wrapping.RemoveOldest (c : Cache) : Cache :=
  match c.l.getLast? with
  | some ele => Wrapping.removeElement c ele
  | none => c

/-- Method `Cache.Add`, the increment wrapping. -/
def Wrapping.Add (c : Cache) (key : Key) (value : Value) : Cache :=
  match mapLookup c.m key with
  | some ee =>
    let l := MoveToFront c.l ee
    let e := deref c.heap ee
    let e := { e with value := value }
    { c with l := l, heap := c.heap.set ee e }
  | none =>
    let ele := c.heap.length
    let c : Cache :=
      { MaxEntries := int64 (c.MaxEntries + 1)
        l := ele :: c.l
        m := mapInsert c.m key ele
        heap := c.heap ++ [⟨key, value⟩] }
    if c.MaxEntries ≠ 0 ∧ (c.l.length : Int) < c.MaxEntries then Wrapping.RemoveOldest c else c

/-- Method `Cache.Remove`, both decrements wrapping. -/
def Wrapping.Remove (c : Cache) (key : Key) : Cache :=
  match mapLookup c.m key with
  | some ele =>
    let c := Wrapping.removeElement c ele
    { c with MaxEntries := int64 (c.MaxEntries - 1) }
  | none => c

/-- The cache after one call, the counter wrapping. -/
def Wrapping.step (c : Cache) : Call → Cache
  | .Add key value => Wrapping.Add c key value
  | .Get key => (c.Get key).1
  | .Remove key => Wrapping.Remove c key
  | .RemoveOldest => Wrapping.RemoveOldest c

/-- The cache after a sequence of calls, first call first, the counter wrapping. -/
def Wrapping.run (c : Cache) (calls : List Call) : Cache := calls.foldl Wrapping.step c

/-- State of a cache whose bound is positive, as the runs from `NewCache N` keep it: nothing
linked, nothing mapped, `MaxEntries` at `N`. -/
def Cache.EmptyAt (N : Int) (c : Cache) : Prop :=
  c.l = [] ∧ c.m = [] ∧ c.MaxEntries = N

/-- State of a cache as the runs from `NewCache 0` keep it: every mapped handle was issued by
the arena, and `MaxEntries` does not exceed the length of the list. -/
def Cache.NoBound (c : Cache) : Prop :=
  (∀ p ∈ c.m, p.2 < c.heap.length) ∧ c.MaxEntries ≤ (c.l.length : Int)

/-! ## Server handlers (`transport/server.go`) -/

/-- Type `OpCode`. -/
abbrev OpCode := Nat

def OpCodeUnknown : OpCode := 0
def OpCodeSet : OpCode := 1
def OpCodeGet : OpCode := 2
def OpCodeDel : OpCode := 3
def OpCodeGetKeys : OpCode := 4
def StatusSuccess : OpCode := 0xFF
def StatusError : OpCode := 0xFE
def StatusNotFound : OpCode := 0xFD

/-- Type `Operation`; an unset `Payload` is the empty byte sequence. -/
structure Operation where
  Code : OpCode
  Payload : List Byte
  deriving DecidableEq, Repr

/-- Conversion `[]byte(s)` of a string to its UTF-8 bytes. -/
def stringBytes (s : String) : List Byte :=
  s.toUTF8.toList.map (fun b => byte b.toNat)

/-- Handler `get`: the response and the cache after the call. -/
def get (payload : List Byte) (c : Cache) (now : Int) : Operation × Cache :=
  let key := payload
  let (c, val, ok) := c.Get key
  if !ok then
    ({ Code := StatusNotFound, Payload := [] }, c)
  else if now ≥ (val.Expired : Int) then
    ({ Code := StatusNotFound, Payload := [] }, c)
  else
    ({ Code := StatusSuccess, Payload := EncodeItem key val }, c)

/-- Handler `set`: the response and the cache after the call; a panic of `ParseItem` would
propagate. -/
def set (payload : List Byte) (c : Cache) (now : Int) : Except Fault (Operation × Cache) :=
  match ParseItem payload with
  | .error (.error msg) => .ok ({ Code := StatusError, Payload := stringBytes msg }, c)
  | .error .outOfRange => .error .outOfRange
  | .ok (key, v) =>
    if now ≥ (v.Expired : Int) then
      .ok ({ Code := StatusSuccess, Payload := [] }, c)
    else
      .ok ({ Code := StatusSuccess, Payload := [] }, c.Add key v)

/-- Handler `del`. -/
def del (payload : List Byte) (c : Cache) : Operation × Cache :=
  let key := payload
  ({ Code := StatusSuccess, Payload := [] }, c.Remove key)

/-! ## The eviction scenario of the specification -/

/-- Key `"a"`. -/
def keyA : Key := [97]

/-- Key `"b"`. -/
def keyB : Key := [98]

/-- Key `"c"`. -/
def keyC : Key := [99]

/-- A value that expires far in the future, with a one-byte payload. -/
def someValue : Value := ⟨4000000000, [1]⟩

/-- The calls `Add(a)`, `Add(b)`, `Get(a)`, `Add(c)` of the eviction scenario. -/
def evictionCalls : List Call :=
  [.Add keyA someValue, .Add keyB someValue, .Get keyA, .Add keyC someValue]

/-! ## The recency list as entries, and the agreement of list and map -/

/-- The entries of the recency list, front (most recently used) first: what a walk over
`c.l` from `Front()` reads in each element's `Value`. -/
def Cache.entries (c : Cache) : List entry := c.l.map (deref c.heap)

/-- Agreement of the list, the map and the arena: the map has one pair per key, no handle is
linked twice, the linked handles are exactly the mapped handles, and every mapped handle was
issued by the arena and its cell carries the key it is mapped from. -/
def Cache.WF (c : Cache) : Prop :=
  (c.m.map Prod.fst).Nodup ∧ c.l.Nodup ∧ c.l.Perm (c.m.map Prod.snd) ∧
    ∀ p ∈ c.m, p.2 < c.heap.length ∧ (deref c.heap p.2).key = p.1

/-! ## The key list on the wire (`getkeys` in `transport/server.go`, `Keys` in
`client/client.go`) -/

namespace BigEndian

/-- `binary.BigEndian.Uint64(b)`. -/
def Uint64 (b : List Byte) : Except Fault Nat :=
  match b with
  | b0 :: b1 :: b2 :: b3 :: b4 :: b5 :: b6 :: b7 :: _ =>
    .ok (b7.val ||| (b6.val <<< 8) ||| (b5.val <<< 16) ||| (b4.val <<< 24) ||| (b3.val <<< 32)
      ||| (b2.val <<< 40) ||| (b1.val <<< 48) ||| (b0.val <<< 56))
  | _ => .error .outOfRange

/-- `binary.BigEndian.PutUint64(b[off:], v)` seen from `b`; the buffer is long enough at every
call site. -/
def PutUint64 (b : List Byte) (off : Nat) (v : Nat) : List Byte :=
  (((((((b.set off (byte (v >>> 56))).set (off + 1) (byte (v >>> 48))).set (off + 2)
    (byte (v >>> 40))).set (off + 3) (byte (v >>> 32))).set (off + 4)
    (byte (v >>> 24))).set (off + 5) (byte (v >>> 16))).set (off + 6)
    (byte (v >>> 8))).set (off + 7) (byte v)

end BigEndian

/-- The payload `getkeys` builds from the key list: the scratch array `b` is written with the
count and appended, then for each key it is overwritten with the key length, its first two
bytes are appended and the key follows. The state of the fold is `(b, buf)`. -/
def getkeysPayload (keys : List Key) : List Byte :=
  let b := BigEndian.PutUint64 (make 8) 0 (keys.length % 2 ^ 64)
  let buf : List Byte := [] ++ b
  (keys.foldl (fun (st : List Byte × List Byte) (k : Key) =>
      let b := BigEndian.PutUint16 st.1 0 (k.length % 2 ^ 16)
      (b, st.2 ++ b.take 2 ++ k)) (b, buf)).2

/-- Handler `getkeys`. -/
def getkeys (_payload : List Byte) (c : Cache) : Operation × Cache :=
  ({ Code := StatusSuccess, Payload := getkeysPayload c.Keys }, c)

/-- Message of `ErrEntityNotFound`. -/
def ErrEntityNotFound : Fault := .error "entity not found"

/-- The tail of `Client.rpc`: what the client makes of the response frame. The error built from
an `Error` response carries the payload as its message; the model reads each payload byte as
one character. -/
def rpcResult (op : Operation) : Except Fault (List Byte) :=
  if op.Code = StatusSuccess then .ok op.Payload
  else if op.Code = StatusNotFound then .error ErrEntityNotFound
  else .error (.error (String.mk (op.Payload.map (fun b => Char.ofNat b.val))))

/-- The loop of `Client.Keys`: `n` keys are still to be read from `data`. -/
def keysLoop : Nat → List Byte → Except Fault (List Key)
  | 0, _ => .ok []
  | n + 1, data => do
    let keyLen ← BigEndian.Uint16 data
    let data ← sliceFrom data 2
    let key ← sliceTo data keyLen
    let data ← sliceFrom data keyLen
    let rest ← keysLoop n data
    .ok (key :: rest)

/-- The decoding part of `Client.Keys`, from the payload of a `Success` response.
`make([]string, int(keysLen))` panics when `int(keysLen)` is negative. -/
def keysDecode (data : List Byte) : Except Fault (List Key) := do
  let keysLen ← BigEndian.Uint64 data
  let data ← sliceFrom data 8
  if 2 ^ 63 ≤ keysLen then .error .outOfRange
  else keysLoop keysLen data

/-- Method `Client.Keys`, from the response frame the server sent. -/
def Client.Keys (response : Operation) : Except Fault (List Key) :=
  rpcResult response >>= keysDecode

/-! ## The connection pool (`client/client.go`)

The pool is run by one caller at a time. What the rest of the world does while a call is in
progress is an argument of the call: the result of `net.Dial`, the clock, and which case of
the blocking `select` becomes ready first. A connection is known by a number; `closedConns`
records the connections on which `Close` was called. -/

/-- Go conversion `int32(n)`: two's complement, 32 bits. -/
def int32 (n : Int) : Int := (n + 2147483648) % 4294967296 - 2147483648

/-- Type `poolConn`. -/
structure poolConn where
  Conn : Nat
  lastUsed : Int
  deriving DecidableEq, Repr

/-- Type `pool`; `connCh` lists the connections buffered in the channel, oldest first,
`connChCap` is its capacity and `connChClosed` tells whether `close(p.connCh)` has run. -/
structure pool where
  maxIdleConns : Int
  maxConns : Int
  currentConns : Int
  connCh : List poolConn
  connChCap : Int
  connChClosed : Bool
  waitFreeConn : Int
  closed : Int
  closedConns : List Nat
  deriving DecidableEq, Repr

/-- Variable `DefaultWaitConn`, in nanoseconds. -/
def DefaultWaitConn : Int := 100 * 1000000

/-- Function `newPool` (the address plays no part in the model; the reaper goroutine it starts
is `pool.runWake` below). -/
def newPool (maxIdlConns maxConns waitConn : Int) : pool :=
  let maxIdlConns := if maxIdlConns = 0 then 0xFFFFFFFF else maxIdlConns
  let maxConns := if maxConns = 0 then 0xFFFFFFFF else maxConns
  let waitConn := if waitConn = 0 then DefaultWaitConn else waitConn
  { maxConns := int32 maxConns
    maxIdleConns := int32 maxIdlConns
    currentConns := 0
    waitFreeConn := waitConn
    connCh := []
    connChCap := maxConns
    connChClosed := false
    closed := 0
    closedConns := [] }

/-- Which case of the blocking `select` in `pool.get` is ready first. -/
inductive WaitOutcome where
  | timer
  | conn (c : poolConn)
  | chanClosed
  deriving DecidableEq, Repr

/-- Method `pool.get`: `dial` is the result of `net.Dial`, `now` is `time.Now().Unix()`, `w` is
the outcome of the blocking `select`. -/
def pool.get (p : pool) (dial : Except Fault Nat) (now : Int) (w : WaitOutcome) :
    Except Fault poolConn × pool :=
  if p.closed = 1 then
    (.error (.error "connection pool was closed"), p)
  else
    match p.connCh with
    | conn :: rest => (.ok conn, { p with connCh := rest })
    | [] =>
      if p.connChClosed then
        (.error (.error "connection pool was closed"), p)
      else
        let nv := int32 (p.currentConns + 1)
        let p := { p with currentConns := nv }
        if nv < p.maxConns then
          match dial with
          | .error err => (.error err, p)
          | .ok conn => (.ok { Conn := conn, lastUsed := now }, p)
        else
          let p := { p with currentConns := int32 (p.currentConns + -1) }
          match w with
          | .timer => (.error (.error "all connections are used"), p)
          | .conn c => (.ok c, p)
          | .chanClosed => (.error (.error "connection pool was closed"), p)

/-- Method `pool.remove`. -/
def pool.remove (p : pool) (conn : poolConn) : pool :=
  { p with currentConns := int32 (p.currentConns + -1)
           closedConns := p.closedConns ++ [conn.Conn] }

/-- Method `pool.put` (the channel has room at every call below). -/
def pool.put (p : pool) (conn : poolConn) : pool :=
  if p.closed = 1 then p.remove conn
  else { p with connCh := p.connCh ++ [conn] }

/-- One pass through the body of the loop in `pool.run`, taken when the timer fires at time
`now` (`time.Now().Unix()`) and the channel has a connection to hand over. -/
def pool.runWake (p : pool) (now : Int) : pool :=
  if p.closed = 1 then p
  else
    match p.connCh with
    | [] => p
    | pc :: rest =>
      let p := { p with connCh := rest }
      if now + 5 < pc.lastUsed then
        p.put pc
      else if p.currentConns ≥ p.maxIdleConns then
        p.remove pc
      else
        p

/-! ## Big-endian fields, as the layout tables state them -/

/-- Value of a byte sequence read as a big-endian number. -/
def beNat (bs : List Byte) : Nat := bs.foldl (fun acc b => acc * 256 + b.val) 0

/-- The big-endian number held in the `n` bytes of `data` that start at offset `off`. -/
def fieldAt (data : List Byte) (off n : Nat) : Nat := beNat ((data.drop off).take n)

/-- The ten header bytes of an item with the given field values. -/
def headerBytes (expired keyLen valueLen : Nat) : List Byte :=
  [byte (expired / 2 ^ 24), byte (expired / 2 ^ 16), byte (expired / 2 ^ 8), byte expired,
   byte (keyLen / 2 ^ 8), byte keyLen,
   byte (valueLen / 2 ^ 24), byte (valueLen / 2 ^ 16), byte (valueLen / 2 ^ 8), byte valueLen]

/-- The eight bytes of a big-endian count. -/
def countBytes (n : Nat) : List Byte :=
  [byte (n / 2 ^ 56), byte (n / 2 ^ 48), byte (n / 2 ^ 40), byte (n / 2 ^ 32),
   byte (n / 2 ^ 24), byte (n / 2 ^ 16), byte (n / 2 ^ 8), byte n]

/-- The records of a key list on the wire: for each key in order, its two-byte big-endian
length and then its bytes. -/
def keyRecords : List Key → List Byte
  | [] => []
  | k :: ks => byte (k.length / 2 ^ 8) :: byte k.length :: (k ++ keyRecords ks)

/-! ## Codec lemmas -/

theorem lor_shiftLeft (x a i p : Nat) (hp : 2 ^ i = p) (h : x < p) :
    x ||| (a <<< i) = a * p + x := by
  subst hp
  rw [Nat.or_comm, Nat.shiftLeft_eq, Nat.mul_comm, ← Nat.mul_add_lt_is_or h]

theorem Uint16_cons (b0 b1 : Byte) (rest : List Byte) :
    BigEndian.Uint16 (b0 :: b1 :: rest) = .ok (b0.val * 256 + b1.val) := by
  have h1 := b1.isLt
  simp only [BigEndian.Uint16]
  rw [lor_shiftLeft _ _ 8 256 (by norm_num) h1]

theorem Uint32_cons (b0 b1 b2 b3 : Byte) (rest : List Byte) :
    BigEndian.Uint32 (b0 :: b1 :: b2 :: b3 :: rest)
      = .ok (b0.val * 16777216 + b1.val * 65536 + b2.val * 256 + b3.val) := by
  have h0 := b0.isLt
  have h1 := b1.isLt
  have h2 := b2.isLt
  have h3 := b3.isLt
  have e8 : (2 : Nat) ^ 8 = 256 := by norm_num
  have e16 : (2 : Nat) ^ 16 = 65536 := by norm_num
  have e24 : (2 : Nat) ^ 24 = 16777216 := by norm_num
  have s1 : b3.val ||| (b2.val <<< 8) = b2.val * 256 + b3.val :=
    lor_shiftLeft _ _ 8 256 e8 h3
  have s2 : (b2.val * 256 + b3.val) ||| (b1.val <<< 16) = b1.val * 65536 + (b2.val * 256 + b3.val) :=
    lor_shiftLeft _ _ 16 65536 e16 (by omega)
  have s3 : (b1.val * 65536 + (b2.val * 256 + b3.val)) ||| (b0.val <<< 24)
      = b0.val * 16777216 + (b1.val * 65536 + (b2.val * 256 + b3.val)) :=
    lor_shiftLeft _ _ 24 16777216 e24 (by omega)
  have e : b3.val ||| (b2.val <<< 8) ||| (b1.val <<< 16) ||| (b0.val <<< 24)
      = b0.val * 16777216 + b1.val * 65536 + b2.val * 256 + b3.val := by
    rw [s1, s2, s3]
    omega
  show Except.ok _ = Except.ok _
  rw [e]

theorem byte_val (n : Nat) : (byte n).val = n % 256 := rfl

theorem byte_of_val (b : Byte) : byte b.val = b := by
  apply Fin.ext
  simp [byte_val, Nat.mod_eq_of_lt b.isLt]

theorem headerBytes_length (e k v : Nat) : (headerBytes e k v).length = 10 := rfl

theorem copy_of_le (dst src : List Byte) (h : src.length ≤ dst.length) :
    copy dst src = src ++ dst.drop src.length := by
  simp [copy, List.take_of_length_le h]

theorem copyAt_append (a r src : List Byte) (off : Nat) (h : off = a.length) :
    copyAt (a ++ r) off src = a ++ copy r src := by
  subst h
  simp [copyAt]

theorem copyAt_twice (hdr key payload : List Byte) (hl : hdr.length = ItemHeaderSize) :
    copyAt (copyAt (hdr ++ (List.replicate key.length 0 ++ List.replicate payload.length 0))
        ItemHeaderSize key) (ItemHeaderSize + key.length) payload
      = hdr ++ (key ++ payload) := by
  have h1 : copyAt (hdr ++ (List.replicate key.length 0 ++ List.replicate payload.length 0))
      ItemHeaderSize key = (hdr ++ key) ++ List.replicate payload.length 0 := by
    rw [copyAt_append hdr _ key ItemHeaderSize hl.symm, copy_of_le _ _ (by simp)]
    simp
  have h2 : copyAt ((hdr ++ key) ++ List.replicate payload.length 0)
      (ItemHeaderSize + key.length) payload = (hdr ++ key) ++ payload := by
    rw [copyAt_append (hdr ++ key) _ payload (ItemHeaderSize + key.length) (by simp [hl]),
      copy_of_le _ _ (by simp)]
    simp
  rw [h1, h2, List.append_assoc]

theorem EncodeItem_eq (key : Key) (value : Value) :
    EncodeItem key value
      = headerBytes (value.Expired % 2 ^ 32) (key.length % 2 ^ 16) (value.Value.length % 2 ^ 32)
          ++ (key ++ value.Value) := by
  have hrep : List.replicate (10 + key.length + value.Value.length) (0 : Byte)
      = 0 :: 0 :: 0 :: 0 :: 0 :: 0 :: 0 :: 0 :: 0 :: 0 ::
          (List.replicate key.length 0 ++ List.replicate value.Value.length 0) := by
    rw [Nat.add_assoc, List.replicate_add, List.replicate_add]
    rfl
  have hput : BigEndian.PutUint32 (BigEndian.PutUint16 (BigEndian.PutUint32
        (make (ItemHeaderSize + key.length + value.Value.length)) 0 (value.Expired % 2 ^ 32))
        4 (key.length % 2 ^ 16)) 6 (value.Value.length % 2 ^ 32)
      = headerBytes (value.Expired % 2 ^ 32) (key.length % 2 ^ 16)
          (value.Value.length % 2 ^ 32)
          ++ (List.replicate key.length 0 ++ List.replicate value.Value.length 0) := by
    simp only [make, ItemHeaderSize, BigEndian.PutUint32, BigEndian.PutUint16, hrep,
      headerBytes, Nat.shiftRight_eq_div_pow, List.set_cons_succ, List.set_cons_zero,
      Nat.zero_add, Nat.reduceAdd, List.cons_append, List.nil_append]
  unfold EncodeItem
  simp only [hput]
  exact copyAt_twice _ key value.Value (headerBytes_length _ _ _)

theorem copy_make (n : Nat) (src : List Byte) (h : src.length = n) :
    copy (make n) src = src := by
  simp [copy, make, h]

theorem ParseItem_cons (b0 b1 b2 b3 b4 b5 b6 b7 b8 b9 : Byte) (rest : List Byte) :
    ParseItem (b0 :: b1 :: b2 :: b3 :: b4 :: b5 :: b6 :: b7 :: b8 :: b9 :: rest)
      = if rest.length ≠ (b4.val * 256 + b5.val)
            + (b6.val * 16777216 + b7.val * 65536 + b8.val * 256 + b9.val) then
          .error ErrSetItemSizeTooSmall
        else
          .ok (rest.take (b4.val * 256 + b5.val),
            ⟨b0.val * 16777216 + b1.val * 65536 + b2.val * 256 + b3.val,
             rest.drop (b4.val * 256 + b5.val)⟩) := by
  have hs4 : sliceFrom (b0 :: b1 :: b2 :: b3 :: b4 :: b5 :: b6 :: b7 :: b8 :: b9 :: rest) 4
      = .ok (b4 :: b5 :: b6 :: b7 :: b8 :: b9 :: rest) := by
    simp [sliceFrom]
  have hs6 : sliceFrom (b0 :: b1 :: b2 :: b3 :: b4 :: b5 :: b6 :: b7 :: b8 :: b9 :: rest) 6
      = .ok (b6 :: b7 :: b8 :: b9 :: rest) := by
    simp [sliceFrom]
  have hs10 : sliceFrom (b0 :: b1 :: b2 :: b3 :: b4 :: b5 :: b6 :: b7 :: b8 :: b9 :: rest)
      ItemHeaderSize = .ok rest := by
    simp [sliceFrom, ItemHeaderSize]
  have hlen : ¬ (b0 :: b1 :: b2 :: b3 :: b4 :: b5 :: b6 :: b7 :: b8 :: b9 :: rest).length
      < ItemHeaderSize := by
    simp [ItemHeaderSize]
  unfold ParseItem
  rw [if_neg hlen, hs4, hs6, hs10, Uint32_cons]
  simp only [bind, Except.bind, Uint16_cons, Uint32_cons, sliceTo, sliceFrom]
  by_cases h : rest.length = (b4.val * 256 + b5.val)
      + (b6.val * 16777216 + b7.val * 65536 + b8.val * 256 + b9.val)
  · have hle : b4.val * 256 + b5.val ≤ rest.length := by omega
    have hcopy : copy (make (b6.val * 16777216 + b7.val * 65536 + b8.val * 256 + b9.val))
        (rest.drop (b4.val * 256 + b5.val)) = rest.drop (b4.val * 256 + b5.val) :=
      copy_make _ _ (by rw [List.length_drop]; omega)
    simp [h, hcopy]
  · simp [h]

theorem exists_cons_of_length (data : List Byte) (h : 10 ≤ data.length) :
    ∃ b0 b1 b2 b3 b4 b5 b6 b7 b8 b9 rest,
      data = b0 :: b1 :: b2 :: b3 :: b4 :: b5 :: b6 :: b7 :: b8 :: b9 :: rest := by
  match data, h with
  | b0 :: b1 :: b2 :: b3 :: b4 :: b5 :: b6 :: b7 :: b8 :: b9 :: rest, _ =>
    exact ⟨b0, b1, b2, b3, b4, b5, b6, b7, b8, b9, rest, rfl⟩




theorem ParseItem_error (data : List Byte) (e : Fault) (h : ParseItem data = .error e) :
    e = ErrSetItemSizeTooSmall := by
  by_cases hlen : data.length < ItemHeaderSize
  · simp only [ParseItem, if_pos hlen, Except.error.injEq] at h
    exact h.symm
  · obtain ⟨b0, b1, b2, b3, b4, b5, b6, b7, b8, b9, rest, rfl⟩ :=
      exists_cons_of_length data (by simpa [ItemHeaderSize] using hlen)
    rw [ParseItem_cons] at h
    split at h
    · simp only [Except.error.injEq] at h
      exact h.symm
    · exact Except.noConfusion h

theorem be16_digits (n : Nat) (h : n < 65536) :
    (byte (n / 2 ^ 8)).val * 256 + (byte n).val = n := by
  simp only [byte_val]
  omega

theorem be32_digits (n : Nat) (h : n < 4294967296) :
    (byte (n / 2 ^ 24)).val * 16777216 + (byte (n / 2 ^ 16)).val * 65536
      + (byte (n / 2 ^ 8)).val * 256 + (byte n).val = n := by
  simp only [byte_val]
  omega

theorem headerBytes_digits (b0 b1 b2 b3 b4 b5 b6 b7 b8 b9 : Byte) :
    headerBytes (b0.val * 16777216 + b1.val * 65536 + b2.val * 256 + b3.val)
      (b4.val * 256 + b5.val)
      (b6.val * 16777216 + b7.val * 65536 + b8.val * 256 + b9.val)
      = [b0, b1, b2, b3, b4, b5, b6, b7, b8, b9] := by
  have h0 := b0.isLt
  have h1 := b1.isLt
  have h2 := b2.isLt
  have h3 := b3.isLt
  have h4 := b4.isLt
  have h5 := b5.isLt
  have h6 := b6.isLt
  have h7 := b7.isLt
  have h8 := b8.isLt
  have h9 := b9.isLt
  simp only [headerBytes, List.cons.injEq, and_true]
  refine ⟨?_, ?_, ?_, ?_, ?_, ?_, ?_, ?_, ?_, ?_⟩ <;>
    (apply Fin.ext; simp only [byte_val]; omega)

theorem fieldAt_header (b0 b1 b2 b3 b4 b5 b6 b7 b8 b9 : Byte) (rest : List Byte) :
    fieldAt (b0 :: b1 :: b2 :: b3 :: b4 :: b5 :: b6 :: b7 :: b8 :: b9 :: rest) 0 4
        = b0.val * 16777216 + b1.val * 65536 + b2.val * 256 + b3.val ∧
    fieldAt (b0 :: b1 :: b2 :: b3 :: b4 :: b5 :: b6 :: b7 :: b8 :: b9 :: rest) 4 2
        = b4.val * 256 + b5.val ∧
    fieldAt (b0 :: b1 :: b2 :: b3 :: b4 :: b5 :: b6 :: b7 :: b8 :: b9 :: rest) 6 4
        = b6.val * 16777216 + b7.val * 65536 + b8.val * 256 + b9.val := by
  simp only [fieldAt, beNat, List.drop_succ_cons, List.drop_zero, List.take_succ_cons,
    List.take_zero, List.foldl_cons, List.foldl_nil]
  refine ⟨?_, ?_, ?_⟩ <;> omega

/-! ## Map, arena and list lemmas -/

theorem mapLookup_mem (m : List (Key × Nat)) (key : Key) (e : Nat)
    (h : mapLookup m key = some e) : (key, e) ∈ m := by
  induction m with
  | nil => simp [mapLookup] at h
  | cons p rest ih =>
    obtain ⟨k, e'⟩ := p
    simp only [mapLookup] at h
    split at h
    · rename_i hk
      simp only [Option.some.injEq] at h
      subst hk h
      exact List.mem_cons_self _ _
    · exact List.mem_cons_of_mem _ (ih h)

theorem mem_mapDelete (m : List (Key × Nat)) (key : Key) (p : Key × Nat)
    (h : p ∈ mapDelete m key) : p ∈ m :=
  (List.mem_filter.mp h).1

theorem mapLookup_mapDelete_ne (m : List (Key × Nat)) (key k : Key) (hne : k ≠ key) :
    mapLookup (mapDelete m key) k = mapLookup m k := by
  induction m with
  | nil => rfl
  | cons p rest ih =>
    obtain ⟨k', e'⟩ := p
    by_cases hk : k' = key
    · have hk' : ¬ k' = k := fun h => hne (h ▸ hk)
      have hd : mapDelete ((k', e') :: rest) key = mapDelete rest key := by
        simp [mapDelete, hk]
      rw [hd, ih]
      simp [mapLookup, hk']
    · have hd : mapDelete ((k', e') :: rest) key = (k', e') :: mapDelete rest key := by
        simp [mapDelete, hk]
      rw [hd]
      simp only [mapLookup]
      rw [show mapLookup (mapDelete rest key) k = mapLookup rest k from ih]

theorem mapLookup_mapInsert_self (m : List (Key × Nat)) (key : Key) (e : Nat) :
    mapLookup (mapInsert m key e) key = some e := by
  simp [mapInsert, mapLookup]

theorem mapLookup_mapInsert_ne (m : List (Key × Nat)) (key k : Key) (e : Nat) (hne : k ≠ key) :
    mapLookup (mapInsert m key e) k = mapLookup m k := by
  have hne' : ¬ key = k := fun h => hne h.symm
  simp only [mapInsert, mapLookup, if_neg hne']
  exact mapLookup_mapDelete_ne m key k hne

theorem deref_append_lt (heap t : List entry) (e : Nat) (h : e < heap.length) :
    deref (heap ++ t) e = deref heap e := by
  simp [deref, List.getD_eq_getElem?_getD, List.getElem?_append_left h]

theorem deref_append_length (heap : List entry) (x : entry) :
    deref (heap ++ [x]) heap.length = x := by
  simp [deref, List.getD_eq_getElem?_getD]

theorem deref_set_self (heap : List entry) (e : Nat) (x : entry) (h : e < heap.length) :
    deref (heap.set e x) e = x := by
  simp [deref, List.getD_eq_getElem?_getD, h]

theorem length_MoveToFront (l : List Nat) (e : Nat) : (MoveToFront l e).length = l.length := by
  unfold MoveToFront
  split
  · rename_i h
    have hpos : 0 < l.length := List.length_pos_of_mem h
    rw [List.length_cons, List.length_erase_of_mem h]
    omega
  · rfl

theorem length_erase_ge (l : List Nat) (e : Nat) : l.length ≤ (l.erase e).length + 1 := by
  rw [List.length_erase]
  split <;> omega

theorem length_erase_getLast (l : List Nat) (e : Nat) (h : l.getLast? = some e) :
    (l.erase e).length + 1 = l.length := by
  have hmem : e ∈ l := List.mem_of_getLast?_eq_some h
  have hpos : 0 < l.length := List.length_pos_of_mem hmem
  rw [List.length_erase_of_mem hmem]
  omega

/-! ## Runs of a cache with a positive bound -/

theorem run_append (c : Cache) (xs ys : List Call) : c.run (xs ++ ys) = (c.run xs).run ys := by
  simp [Cache.run, List.foldl_append]

theorem Add_of_EmptyAt (N : Int) (hN : 0 < N) (c : Cache) (h : c.EmptyAt N) (key : Key)
    (value : Value) :
    c.Add key value = { c with heap := c.heap ++ [⟨key, value⟩] } := by
  obtain ⟨hl, hm, hmax⟩ := h
  have hcond : (N + 1 ≠ 0) ∧ ((([c.heap.length] : List Nat).length : Int) < N + 1) := by
    constructor
    · omega
    · simp only [List.length_singleton, Nat.cast_one]
      omega
  unfold Cache.Add
  simp only [hl, hm, hmax, mapLookup, if_pos hcond, Cache.RemoveOldest, List.getLast?_singleton,
    Cache.removeElement, deref_append_length, mapInsert, mapDelete]
  simp [List.erase_cons_head]

theorem EmptyAt_step (N : Int) (hN : 0 < N) (c : Cache) (h : c.EmptyAt N) (call : Call) :
    (c.step call).EmptyAt N := by
  cases call with
  | Add key value =>
    simp only [Cache.step]
    rw [Add_of_EmptyAt N hN c h]
    exact h
  | Get key =>
    obtain ⟨hl, hm, hmax⟩ := h
    simp only [Cache.step, Cache.Get, hm, mapLookup]
    exact ⟨hl, hm, hmax⟩
  | Remove key =>
    obtain ⟨hl, hm, hmax⟩ := h
    simp only [Cache.step, Cache.Remove, hm, mapLookup]
    exact ⟨hl, hm, hmax⟩
  | RemoveOldest =>
    obtain ⟨hl, hm, hmax⟩ := h
    simp only [Cache.step, Cache.RemoveOldest, hl, List.getLast?_nil]
    exact ⟨hl, hm, hmax⟩

theorem EmptyAt_run (N : Int) (hN : 0 < N) (calls : List Call) (c : Cache) (h : c.EmptyAt N) :
    (c.run calls).EmptyAt N := by
  induction calls generalizing c with
  | nil => exact h
  | cons call rest ih => exact ih (c.step call) (EmptyAt_step N hN c h call)

theorem EmptyAt_NewCache (N : Int) : (NewCache N).EmptyAt N := ⟨rfl, rfl, rfl⟩

/-! ## Runs of a cache with bound 0 -/

theorem Add_of_NoBound (c : Cache) (h : c.NoBound) (key : Key) (value : Value)
    (hk : mapLookup c.m key = none) :
    c.Add key value =
      { MaxEntries := c.MaxEntries + 1
        l := c.heap.length :: c.l
        m := mapInsert c.m key c.heap.length
        heap := c.heap ++ [⟨key, value⟩] } := by
  obtain ⟨_, hmax⟩ := h
  have hcond : ¬ ((c.MaxEntries + 1 ≠ 0) ∧
      (((c.heap.length :: c.l).length : Int) < c.MaxEntries + 1)) := by
    simp only [List.length_cons, Nat.cast_add, Nat.cast_one]
    omega
  unfold Cache.Add
  simp only [hk, if_neg hcond]

theorem NoBound_removeElement (c : Cache) (h : c.NoBound) (e : Nat) (d : Int) (hd : 0 ≤ d)
    (hdrop : (c.l.erase e).length + 1 = c.l.length ∨ 1 ≤ d) :
    Cache.NoBound { c.removeElement e with MaxEntries := (c.removeElement e).MaxEntries - d } := by
  obtain ⟨hm, hmax⟩ := h
  refine ⟨?_, ?_⟩
  · intro p hp
    exact hm p (mem_mapDelete _ _ _ hp)
  · have hge := length_erase_ge c.l e
    simp only [Cache.removeElement]
    rcases hdrop with h1 | h1 <;> omega

theorem NoBound_step (c : Cache) (h : c.NoBound) (call : Call) : (c.step call).NoBound := by
  cases call with
  | Add key value =>
    simp only [Cache.step]
    cases hk : mapLookup c.m key with
    | none =>
      rw [Add_of_NoBound c h key value hk]
      obtain ⟨hm, hmax⟩ := h
      refine ⟨?_, ?_⟩
      · intro p hp
        simp only [mapInsert, List.mem_cons] at hp
        simp only [List.length_append, List.length_singleton]
        rcases hp with rfl | hp
        · exact Nat.lt_succ_self _
        · exact Nat.lt_succ_of_lt (hm p (mem_mapDelete _ _ _ hp))
      · simp only [List.length_cons, Nat.cast_add, Nat.cast_one]
        omega
    | some ee =>
      obtain ⟨hm, hmax⟩ := h
      simp only [Cache.Add, hk]
      refine ⟨?_, ?_⟩
      · intro p hp
        simp only [List.length_set]
        exact hm p hp
      · simp only [length_MoveToFront]
        exact hmax
  | Get key =>
    obtain ⟨hm, hmax⟩ := h
    simp only [Cache.step, Cache.Get]
    cases hk : mapLookup c.m key with
    | none => exact ⟨hm, hmax⟩
    | some ele =>
      refine ⟨hm, ?_⟩
      simp only [length_MoveToFront]
      exact hmax
  | Remove key =>
    simp only [Cache.step, Cache.Remove]
    cases hk : mapLookup c.m key with
    | none => exact h
    | some ele => exact NoBound_removeElement c h ele 1 (by omega) (Or.inr (le_refl _))
  | RemoveOldest =>
    simp only [Cache.step, Cache.RemoveOldest]
    cases hk : c.l.getLast? with
    | none => exact h
    | some ele =>
      have := NoBound_removeElement c h ele 0 (by omega)
        (Or.inl (length_erase_getLast c.l ele hk))
      simpa using this

theorem NoBound_run (calls : List Call) (c : Cache) (h : c.NoBound) : (c.run calls).NoBound := by
  induction calls generalizing c with
  | nil => exact h
  | cons call rest ih => exact ih (c.step call) (NoBound_step c h call)

theorem NoBound_NewCache : (NewCache 0).NoBound := by
  refine ⟨?_, ?_⟩
  · intro p hp
    simp [NewCache] at hp
  · simp [NewCache]

theorem Get_miss_iff (c : Cache) (key : Key) :
    (c.Get key).2.2 = false ↔ mapLookup c.m key = none := by
  unfold Cache.Get
  cases mapLookup c.m key <;> simp

theorem Get_hit (c : Cache) (key : Key) (v : Value) (h : (c.Get key).2 = (v, true)) :
    ∃ e, mapLookup c.m key = some e ∧ (deref c.heap e).value = v := by
  unfold Cache.Get at h
  cases hk : mapLookup c.m key with
  | none => simp [hk] at h
  | some e =>
    simp only [hk, Prod.mk.injEq, and_true] at h
    exact ⟨e, rfl, h⟩

/-! ## Item codec: the claims -/

/-- C1. Parsing an encoded item succeeds and gives back the key, the expiry and the payload,
for a key of at most 65535 bytes, a 32-bit expiry and a payload shorter than `2^32` bytes. -/
theorem ParseItem_EncodeItem (key : Key) (value : Value) (hk : key.length ≤ 65535)
    (he : value.Expired < 2 ^ 32) (hv : value.Value.length < 2 ^ 32) :
    ParseItem (EncodeItem key value) = .ok (key, value) := by
  have hk' : key.length % 2 ^ 16 = key.length := Nat.mod_eq_of_lt (by omega)
  have he' : value.Expired % 2 ^ 32 = value.Expired := Nat.mod_eq_of_lt he
  have hv' : value.Value.length % 2 ^ 32 = value.Value.length := Nat.mod_eq_of_lt hv
  rw [EncodeItem_eq, hk', he', hv']
  simp only [headerBytes, List.cons_append, List.nil_append]
  rw [ParseItem_cons, be16_digits _ (by omega), be32_digits _ (by omega),
    be32_digits _ (by omega)]
  simp

/-- Instance of C1 on a two-byte key and a three-byte payload. -/
theorem ParseItem_EncodeItem_witness :
    ParseItem (EncodeItem [1, 2] ⟨258, [7, 8, 9]⟩) = .ok ([1, 2], ⟨258, [7, 8, 9]⟩) :=
  ParseItem_EncodeItem [1, 2] ⟨258, [7, 8, 9]⟩ (by decide) (by decide) (by decide)

/-- C2. Whenever `ParseItem` succeeds on `data` with key and value, encoding that key and value
gives `data` back. -/
theorem EncodeItem_ParseItem (data : List Byte) (key : Key) (value : Value)
    (h : ParseItem data = .ok (key, value)) : EncodeItem key value = data := by
  by_cases hlen : data.length < ItemHeaderSize
  · simp [ParseItem, hlen, ErrSetItemSizeTooSmall] at h
  · obtain ⟨b0, b1, b2, b3, b4, b5, b6, b7, b8, b9, rest, rfl⟩ :=
      exists_cons_of_length data (by simpa [ItemHeaderSize] using hlen)
    have h4 := b4.isLt
    have h5 := b5.isLt
    have h6 := b6.isLt
    have h7 := b7.isLt
    have h8 := b8.isLt
    have h9 := b9.isLt
    have h0 := b0.isLt
    have h1 := b1.isLt
    have h2 := b2.isLt
    have h3 := b3.isLt
    rw [ParseItem_cons] at h
    split at h
    · simp [ErrSetItemSizeTooSmall] at h
    · rename_i hl
      have hl' : rest.length = (b4.val * 256 + b5.val)
          + (b6.val * 16777216 + b7.val * 65536 + b8.val * 256 + b9.val) := by
        simpa using hl
      simp only [Except.ok.injEq, Prod.mk.injEq] at h
      obtain ⟨hkey, hval⟩ := h
      subst hkey hval
      rw [EncodeItem_eq]
      have hkl : (rest.take (b4.val * 256 + b5.val)).length = b4.val * 256 + b5.val := by
        rw [List.length_take]; omega
      have hvl : (rest.drop (b4.val * 256 + b5.val)).length
          = b6.val * 16777216 + b7.val * 65536 + b8.val * 256 + b9.val := by
        rw [List.length_drop]; omega
      simp only [hkl, hvl]
      rw [Nat.mod_eq_of_lt (by omega), Nat.mod_eq_of_lt (by omega),
        Nat.mod_eq_of_lt (by omega), headerBytes_digits, List.take_append_drop]
      rfl

/-- Instance of C2 on a twelve-byte item. -/
theorem EncodeItem_ParseItem_witness :
    EncodeItem [1] ⟨5, [9]⟩ = [0, 0, 0, 5, 0, 1, 0, 0, 0, 1, 1, 9] :=
  EncodeItem_ParseItem [0, 0, 0, 5, 0, 1, 0, 0, 0, 1, 1, 9] [1] ⟨5, [9]⟩ (by decide)

/-- C3. `ParseItem` returns the item-size-too-small error exactly when the buffer is shorter
than the ten-byte header or the bytes after the header do not number `key_len + value_len`
(the big-endian fields at offsets 4 and 6); on every other buffer it returns, with no
out-of-range access, the `key_len` bytes at offset 10 as key, the big-endian field at offset 0
as expiry and the remaining `value_len` bytes as payload. -/
theorem ParseItem_spec (data : List Byte) :
    ParseItem data
      = if data.length < 10 ∨ data.length - 10 ≠ fieldAt data 4 2 + fieldAt data 6 4 then
          .error (.error "set item size too small")
        else
          .ok ((data.drop 10).take (fieldAt data 4 2),
            ⟨fieldAt data 0 4, (data.drop (10 + fieldAt data 4 2)).take (fieldAt data 6 4)⟩) := by
  by_cases hlen : data.length < 10
  · simp [ParseItem, ItemHeaderSize, hlen, ErrSetItemSizeTooSmall]
  · obtain ⟨b0, b1, b2, b3, b4, b5, b6, b7, b8, b9, rest, rfl⟩ :=
      exists_cons_of_length data (by omega)
    obtain ⟨f0, f4, f6⟩ := fieldAt_header b0 b1 b2 b3 b4 b5 b6 b7 b8 b9 rest
    rw [ParseItem_cons, f0, f4, f6]
    by_cases hl : rest.length = (b4.val * 256 + b5.val)
        + (b6.val * 16777216 + b7.val * 65536 + b8.val * 256 + b9.val)
    · have hdrop : List.drop (10 + (b4.val * 256 + b5.val))
          (b0 :: b1 :: b2 :: b3 :: b4 :: b5 :: b6 :: b7 :: b8 :: b9 :: rest)
          = rest.drop (b4.val * 256 + b5.val) := by
        rw [← List.drop_drop]
        rfl
      have htake : (rest.drop (b4.val * 256 + b5.val)).take
          (b6.val * 16777216 + b7.val * 65536 + b8.val * 256 + b9.val)
          = rest.drop (b4.val * 256 + b5.val) :=
        List.take_of_length_le (by rw [List.length_drop]; omega)
      have hc : ¬ ((b0 :: b1 :: b2 :: b3 :: b4 :: b5 :: b6 :: b7 :: b8 :: b9 :: rest).length < 10
          ∨ (b0 :: b1 :: b2 :: b3 :: b4 :: b5 :: b6 :: b7 :: b8 :: b9 :: rest).length - 10
            ≠ (b4.val * 256 + b5.val)
              + (b6.val * 16777216 + b7.val * 65536 + b8.val * 256 + b9.val)) := by
        simp only [List.length_cons]
        omega
      rw [hdrop, htake, if_neg hc, if_neg (not_not.mpr hl)]
      rfl
    · have hc : (b0 :: b1 :: b2 :: b3 :: b4 :: b5 :: b6 :: b7 :: b8 :: b9 :: rest).length < 10
          ∨ (b0 :: b1 :: b2 :: b3 :: b4 :: b5 :: b6 :: b7 :: b8 :: b9 :: rest).length - 10
            ≠ (b4.val * 256 + b5.val)
              + (b6.val * 16777216 + b7.val * 65536 + b8.val * 256 + b9.val) := by
        right
        simp only [List.length_cons]
        omega
      rw [if_pos hc, if_pos hl]
      rfl

/-- C4. The encoded item is `10 + len(key) + len(payload)` bytes long: the expiry in bytes 0-3,
the key length in bytes 4-5, the payload length in bytes 6-9 (all big endian), the key from
offset 10 and the payload from offset `10 + len(key)`. -/
theorem EncodeItem_layout (key : Key) (value : Value) (hk : key.length ≤ 65535)
    (he : value.Expired < 2 ^ 32) (hv : value.Value.length < 2 ^ 32) :
    (EncodeItem key value).length = 10 + key.length + value.Value.length ∧
    fieldAt (EncodeItem key value) 0 4 = value.Expired ∧
    fieldAt (EncodeItem key value) 4 2 = key.length ∧
    fieldAt (EncodeItem key value) 6 4 = value.Value.length ∧
    ((EncodeItem key value).drop 10).take key.length = key ∧
    (EncodeItem key value).drop (10 + key.length) = value.Value := by
  have hk' : key.length % 2 ^ 16 = key.length := Nat.mod_eq_of_lt (by omega)
  have he' : value.Expired % 2 ^ 32 = value.Expired := Nat.mod_eq_of_lt he
  have hv' : value.Value.length % 2 ^ 32 = value.Value.length := Nat.mod_eq_of_lt hv
  rw [EncodeItem_eq, hk', he', hv']
  simp only [headerBytes, List.cons_append, List.nil_append]
  obtain ⟨f0, f4, f6⟩ := fieldAt_header (byte (value.Expired / 2 ^ 24))
    (byte (value.Expired / 2 ^ 16)) (byte (value.Expired / 2 ^ 8)) (byte value.Expired)
    (byte (key.length / 2 ^ 8)) (byte key.length) (byte (value.Value.length / 2 ^ 24))
    (byte (value.Value.length / 2 ^ 16)) (byte (value.Value.length / 2 ^ 8))
    (byte value.Value.length) (key ++ value.Value)
  rw [f0, f4, f6, be16_digits _ (by omega), be32_digits _ (by omega), be32_digits _ (by omega)]
  refine ⟨?_, rfl, rfl, rfl, ?_, ?_⟩
  · simp only [List.length_cons, List.length_append]
    omega
  · simp
  · rw [← List.drop_drop]
    simp

/-- Instance of C4 on a two-byte key and a three-byte payload. -/
theorem EncodeItem_layout_witness :
    (EncodeItem [1, 2] ⟨258, [7, 8, 9]⟩).length = 10 + 2 + 3 ∧
    fieldAt (EncodeItem [1, 2] ⟨258, [7, 8, 9]⟩) 0 4 = 258 ∧
    fieldAt (EncodeItem [1, 2] ⟨258, [7, 8, 9]⟩) 4 2 = 2 ∧
    fieldAt (EncodeItem [1, 2] ⟨258, [7, 8, 9]⟩) 6 4 = 3 ∧
    ((EncodeItem [1, 2] ⟨258, [7, 8, 9]⟩).drop 10).take 2 = [1, 2] ∧
    (EncodeItem [1, 2] ⟨258, [7, 8, 9]⟩).drop (10 + 2) = [7, 8, 9] :=
  EncodeItem_layout [1, 2] ⟨258, [7, 8, 9]⟩ (by decide) (by decide) (by decide)

/-! ## Cache core: the claims -/

theorem bounded_Add_then_Get_misses (N : Int) (hN : 0 < N) (calls : List Call) (key : Key)
    (value : Value) :
    ((((NewCache N).run calls).Add key value).Get key).2 = (zeroValue, false) := by
  have h := EmptyAt_run N hN calls (NewCache N) (EmptyAt_NewCache N)
  rw [Add_of_EmptyAt N hN _ h]
  obtain ⟨_, hm, _⟩ := h
  simp [Cache.Get, hm, mapLookup]

theorem unbounded_Add_then_Get (calls : List Call) (key : Key) (value : Value) :
    ((((NewCache 0).run calls).Add key value).Get key).2 = (value, true) := by
  have h := NoBound_run calls (NewCache 0) NoBound_NewCache
  cases hk : mapLookup ((NewCache 0).run calls).m key with
  | none =>
    rw [Add_of_NoBound _ h key value hk]
    simp [Cache.Get, mapLookup_mapInsert_self, deref_append_length]
  | some ee =>
    have hlt : ee < ((NewCache 0).run calls).heap.length := h.1 _ (mapLookup_mem _ _ _ hk)
    simp [Cache.Add, Cache.Get, hk, deref_set_self _ _ _ hlt]

/-- C5, at the failing input. On `NewCache(1)`, `Add("a", v)` followed at once by `Get("a")`
misses: `Add` raises `MaxEntries` to 2, links the entry, finds `Len() = 1 < 2` and removes the
entry it has just linked. -/
theorem Add_then_Get_misses_at_bound_one :
    (((NewCache 1).Add keyA someValue).Get keyA).2 = (zeroValue, false) ∧
    ((NewCache 1).Add keyA someValue).Len = 0 ∧
    ((NewCache 1).Add keyA someValue).MaxEntries = 1 := by
  decide

/-- C6, at the failing input. With `max_entries = 2`, after `Add(a)`, `Add(b)`, `Get(a)`,
`Add(c)` the three keys all miss and the cache is empty; and a cache whose `MaxEntries` is 2
and that holds two entries (reached from `NewCache(0)` by two `Add`s) keeps all three keys
after `Add(c)`, with no eviction. -/
theorem eviction_scenario_evicts_everything :
    ((((NewCache 2).run evictionCalls).Get keyB).2.2 = false ∧
      (((NewCache 2).run evictionCalls).Get keyA).2.2 = false ∧
      (((NewCache 2).run evictionCalls).Get keyC).2.2 = false ∧
      ((NewCache 2).run evictionCalls).Len = 0) ∧
    (((NewCache 0).run [.Add keyA someValue, .Add keyB someValue]).MaxEntries = 2 ∧
      ((NewCache 0).run [.Add keyA someValue, .Add keyB someValue]).Len = 2 ∧
      (((NewCache 0).run [.Add keyA someValue, .Add keyB someValue]).Add keyC someValue).Len
        = 3) := by
  decide

/-- C7. For a positive bound `N`, after every call of every sequence of `Add`, `Get`, `Remove`
and `RemoveOldest` applied to `NewCache(N)` (that is, after each prefix of the sequence) the
length of the cache is at most `N`. -/
theorem Len_le_bound (N : Int) (hN : 0 < N) (calls : List Call) (i : Nat) :
    (((NewCache N).run (calls.take i)).Len : Int) ≤ N := by
  obtain ⟨hl, _, _⟩ := EmptyAt_run N hN (calls.take i) (NewCache N) (EmptyAt_NewCache N)
  simp only [Cache.Len, hl, List.length_nil, Nat.cast_zero]
  omega

/-- Instance of C7: bound 2, the eviction scenario, after its third call. -/
theorem Len_le_bound_witness :
    (((NewCache 2).run (evictionCalls.take 3)).Len : Int) ≤ 2 :=
  Len_le_bound 2 (by decide) evictionCalls 3

/-- C8. In every state reached from `NewCache(0)`, `Add` of a key that is not present evicts
nothing: the length grows by exactly one, every key that was present is still present with
its value, and the new key is present with the new value. -/
theorem unbounded_Add_never_evicts (calls : List Call) (key : Key) (value : Value)
    (habsent : (((NewCache 0).run calls).Get key).2.2 = false) :
    (((NewCache 0).run calls).Add key value).Len = ((NewCache 0).run calls).Len + 1 ∧
    (∀ k v, (((NewCache 0).run calls).Get k).2 = (v, true) →
      ((((NewCache 0).run calls).Add key value).Get k).2 = (v, true)) ∧
    ((((NewCache 0).run calls).Add key value).Get key).2 = (value, true) := by
  have h := NoBound_run calls (NewCache 0) NoBound_NewCache
  have hk : mapLookup ((NewCache 0).run calls).m key = none := (Get_miss_iff _ _).mp habsent
  refine ⟨?_, ?_, unbounded_Add_then_Get calls key value⟩
  · rw [Add_of_NoBound _ h key value hk]
    simp [Cache.Len]
  · intro k v hget
    obtain ⟨e, he, hv⟩ := Get_hit _ k v hget
    have hne : k ≠ key := by
      intro heq
      rw [heq, hk] at he
      exact Option.noConfusion he
    have hlt : e < ((NewCache 0).run calls).heap.length := h.1 _ (mapLookup_mem _ _ _ he)
    rw [Add_of_NoBound _ h key value hk]
    simp only [Cache.Get, mapLookup_mapInsert_ne _ _ _ _ hne, he, deref_append_lt _ _ _ hlt, hv]

/-- Instance of C8: after `Add(a)`, `Add(b)` on `NewCache(0)`, `Add(c)` makes the length 3
and keeps `a` and `c`. -/
theorem unbounded_Add_never_evicts_witness :
    (((NewCache 0).run [.Add keyA someValue, .Add keyB someValue]).Add keyC someValue).Len
      = ((NewCache 0).run [.Add keyA someValue, .Add keyB someValue]).Len + 1 ∧
    ((((NewCache 0).run [.Add keyA someValue, .Add keyB someValue]).Add keyC someValue).Get
      keyA).2 = (someValue, true) ∧
    ((((NewCache 0).run [.Add keyA someValue, .Add keyB someValue]).Add keyC someValue).Get
      keyC).2 = (someValue, true) :=
  ⟨(unbounded_Add_never_evicts [.Add keyA someValue, .Add keyB someValue] keyC someValue
      (by decide)).1,
    (unbounded_Add_never_evicts [.Add keyA someValue, .Add keyB someValue] keyC someValue
      (by decide)).2.1 keyA someValue (by decide),
    (unbounded_Add_never_evicts [.Add keyA someValue, .Add keyB someValue] keyC someValue
      (by decide)).2.2⟩

/-! ## Server handlers: the claims -/

/-- C9. The `get` handler answers `NotFound` with an empty payload when the cache reports the
key missing, `NotFound` with an empty payload when the key is present and `now` has reached
its `Expired`, and otherwise `Success` with the encoded item of the key and the stored value;
the cache it leaves is the one `Cache.Get` leaves. -/
theorem get_spec (c : Cache) (key : Key) (now : Int) :
    (get key c now).1 =
      (if (c.Get key).2.2 = false then { Code := StatusNotFound, Payload := [] }
       else if now ≥ ((c.Get key).2.1.Expired : Int) then
         { Code := StatusNotFound, Payload := [] }
       else { Code := StatusSuccess, Payload := EncodeItem key (c.Get key).2.1 }) ∧
    (get key c now).2 = (c.Get key).1 := by
  unfold get
  rcases hg : c.Get key with ⟨c', val, ok⟩
  cases ok
  · simp [hg]
  · by_cases hnow : now ≥ (val.Expired : Int)
    · simp [hg, hnow]
    · simp [hg, hnow]

/-- C10. The `set` handler always returns: on a payload that does not parse it answers `Error`
with the message of the parse error (the only one `ParseItem` returns) and leaves the cache as
it was; on a parsed item with `now ≥ expired` it answers `Success` with an empty payload and
leaves the cache as it was; otherwise it answers `Success` with an empty payload and the cache
is the previous one after `Add(key, value)`. -/
theorem set_spec (payload : List Byte) (c : Cache) (now : Int) :
    set payload c now = .ok
      (match ParseItem payload with
       | .error _ => ({ Code := StatusError, Payload := stringBytes "set item size too small" }, c)
       | .ok (key, v) =>
         if now ≥ (v.Expired : Int) then ({ Code := StatusSuccess, Payload := [] }, c)
         else ({ Code := StatusSuccess, Payload := [] }, c.Add key v)) := by
  cases hp : ParseItem payload with
  | error e =>
    have he := ParseItem_error payload e hp
    subst he
    simp [set, hp, ErrSetItemSizeTooSmall]
  | ok kv =>
    obtain ⟨key, v⟩ := kv
    by_cases hnow : now ≥ (v.Expired : Int)
    · simp [set, hp, hnow]
    · simp [set, hp, hnow]

/-! ## The key list on the wire -/

theorem PutUint64_make (v : Nat) : BigEndian.PutUint64 (make 8) 0 v = countBytes v := by
  simp only [BigEndian.PutUint64, make, List.replicate, List.set_cons_succ, List.set_cons_zero,
    Nat.zero_add, countBytes, Nat.shiftRight_eq_div_pow]

theorem length_PutUint16 (b : List Byte) (off v : Nat) :
    (BigEndian.PutUint16 b off v).length = b.length := by
  simp [BigEndian.PutUint16]

theorem take_PutUint16 (b : List Byte) (v : Nat) (h : 2 ≤ b.length) :
    (BigEndian.PutUint16 b 0 v).take 2 = [byte (v / 2 ^ 8), byte v] := by
  match b, h with
  | b0 :: b1 :: rest, _ =>
    simp [BigEndian.PutUint16, Nat.shiftRight_eq_div_pow]

theorem getkeys_foldl (keys : List Key) (b buf : List Byte) (hb : 2 ≤ b.length)
    (hk : ∀ k ∈ keys, k.length ≤ 65535) :
    (keys.foldl (fun (st : List Byte × List Byte) (k : Key) =>
        let b := BigEndian.PutUint16 st.1 0 (k.length % 2 ^ 16)
        (b, st.2 ++ b.take 2 ++ k)) (b, buf)).2 = buf ++ keyRecords keys := by
  induction keys generalizing b buf with
  | nil => simp [keyRecords]
  | cons k ks ih =>
    have hk0 : k.length % 2 ^ 16 = k.length :=
      Nat.mod_eq_of_lt (by have := hk k (List.mem_cons_self _ _); omega)
    simp only [List.foldl_cons]
    rw [ih _ _ (by rw [length_PutUint16]; exact hb)
      (fun k' hk' => hk k' (List.mem_cons_of_mem _ hk')), take_PutUint16 _ _ hb, hk0]
    simp [keyRecords]

theorem getkeysPayload_eq (keys : List Key) (hk : ∀ k ∈ keys, k.length ≤ 65535)
    (hn : keys.length < 2 ^ 64) :
    getkeysPayload keys = countBytes keys.length ++ keyRecords keys := by
  unfold getkeysPayload
  simp only [PutUint64_make, Nat.mod_eq_of_lt hn, List.nil_append]
  exact getkeys_foldl keys _ _ (by simp [countBytes]) hk

theorem Uint64_cons (b0 b1 b2 b3 b4 b5 b6 b7 : Byte) (rest : List Byte) :
    BigEndian.Uint64 (b0 :: b1 :: b2 :: b3 :: b4 :: b5 :: b6 :: b7 :: rest)
      = .ok (b0.val * 72057594037927936 + b1.val * 281474976710656 + b2.val * 1099511627776
          + b3.val * 4294967296 + b4.val * 16777216 + b5.val * 65536 + b6.val * 256
          + b7.val) := by
  have h0 := b0.isLt
  have h1 := b1.isLt
  have h2 := b2.isLt
  have h3 := b3.isLt
  have h4 := b4.isLt
  have h5 := b5.isLt
  have h6 := b6.isLt
  have h7 := b7.isLt
  have s1 : b7.val ||| (b6.val <<< 8) = b6.val * 256 + b7.val :=
    lor_shiftLeft _ _ 8 256 (by norm_num) h7
  have s2 : (b6.val * 256 + b7.val) ||| (b5.val <<< 16)
      = b5.val * 65536 + (b6.val * 256 + b7.val) :=
    lor_shiftLeft _ _ 16 65536 (by norm_num) (by omega)
  have s3 : (b5.val * 65536 + (b6.val * 256 + b7.val)) ||| (b4.val <<< 24)
      = b4.val * 16777216 + (b5.val * 65536 + (b6.val * 256 + b7.val)) :=
    lor_shiftLeft _ _ 24 16777216 (by norm_num) (by omega)
  have s4 : (b4.val * 16777216 + (b5.val * 65536 + (b6.val * 256 + b7.val)))
        ||| (b3.val <<< 32)
      = b3.val * 4294967296
          + (b4.val * 16777216 + (b5.val * 65536 + (b6.val * 256 + b7.val))) :=
    lor_shiftLeft _ _ 32 4294967296 (by norm_num) (by omega)
  have s5 : (b3.val * 4294967296
          + (b4.val * 16777216 + (b5.val * 65536 + (b6.val * 256 + b7.val))))
        ||| (b2.val <<< 40)
      = b2.val * 1099511627776 + (b3.val * 4294967296
          + (b4.val * 16777216 + (b5.val * 65536 + (b6.val * 256 + b7.val)))) :=
    lor_shiftLeft _ _ 40 1099511627776 (by norm_num) (by omega)
  have s6 : (b2.val * 1099511627776 + (b3.val * 4294967296
          + (b4.val * 16777216 + (b5.val * 65536 + (b6.val * 256 + b7.val)))))
        ||| (b1.val <<< 48)
      = b1.val * 281474976710656 + (b2.val * 1099511627776 + (b3.val * 4294967296
          + (b4.val * 16777216 + (b5.val * 65536 + (b6.val * 256 + b7.val))))) :=
    lor_shiftLeft _ _ 48 281474976710656 (by norm_num) (by omega)
  have s7 : (b1.val * 281474976710656 + (b2.val * 1099511627776 + (b3.val * 4294967296
          + (b4.val * 16777216 + (b5.val * 65536 + (b6.val * 256 + b7.val))))))
        ||| (b0.val <<< 56)
      = b0.val * 72057594037927936 + (b1.val * 281474976710656 + (b2.val * 1099511627776
          + (b3.val * 4294967296
          + (b4.val * 16777216 + (b5.val * 65536 + (b6.val * 256 + b7.val)))))) :=
    lor_shiftLeft _ _ 56 72057594037927936 (by norm_num) (by omega)
  have e : b7.val ||| (b6.val <<< 8) ||| (b5.val <<< 16) ||| (b4.val <<< 24)
        ||| (b3.val <<< 32) ||| (b2.val <<< 40) ||| (b1.val <<< 48) ||| (b0.val <<< 56)
      = b0.val * 72057594037927936 + b1.val * 281474976710656 + b2.val * 1099511627776
          + b3.val * 4294967296 + b4.val * 16777216 + b5.val * 65536 + b6.val * 256
          + b7.val := by
    rw [s1, s2, s3, s4, s5, s6, s7]
    omega
  show Except.ok _ = Except.ok _
  rw [e]

theorem be64_digits (n : Nat) (h : n < 18446744073709551616) :
    (byte (n / 2 ^ 56)).val * 72057594037927936 + (byte (n / 2 ^ 48)).val * 281474976710656
      + (byte (n / 2 ^ 40)).val * 1099511627776 + (byte (n / 2 ^ 32)).val * 4294967296
      + (byte (n / 2 ^ 24)).val * 16777216 + (byte (n / 2 ^ 16)).val * 65536
      + (byte (n / 2 ^ 8)).val * 256 + (byte n).val = n := by
  simp only [byte_val]
  omega

theorem keysLoop_keyRecords (keys : List Key) (hk : ∀ k ∈ keys, k.length ≤ 65535) :
    keysLoop keys.length (keyRecords keys) = .ok keys := by
  induction keys with
  | nil => rfl
  | cons k ks ih =>
    have hk0 : k.length ≤ 65535 := hk k (List.mem_cons_self _ _)
    have hs2 : sliceFrom (byte (k.length / 2 ^ 8) :: byte k.length :: (k ++ keyRecords ks)) 2
        = .ok (k ++ keyRecords ks) := by
      simp [sliceFrom]
    have hto : sliceTo (k ++ keyRecords ks) k.length = .ok k := by
      simp [sliceTo]
    have hfrom : sliceFrom (k ++ keyRecords ks) k.length = .ok (keyRecords ks) := by
      simp [sliceFrom]
    simp only [List.length_cons, keysLoop, keyRecords, Uint16_cons, bind, Except.bind]
    rw [hs2]
    simp only [be16_digits _ (show k.length < 65536 by omega), hto, hfrom,
      ih (fun k' hk' => hk k' (List.mem_cons_of_mem _ hk'))]

theorem keysDecode_getkeysPayload (keys : List Key) (hk : ∀ k ∈ keys, k.length ≤ 65535)
    (hn : keys.length < 2 ^ 63) :
    keysDecode (getkeysPayload keys) = .ok keys := by
  rw [getkeysPayload_eq keys hk (by omega)]
  have hs8 : sliceFrom (countBytes keys.length ++ keyRecords keys) 8
      = .ok (keyRecords keys) := by
    simp [sliceFrom, countBytes]
  unfold keysDecode
  rw [hs8]
  simp only [countBytes, List.cons_append, List.nil_append, Uint64_cons, bind, Except.bind,
    be64_digits _ (show keys.length < 18446744073709551616 by omega)]
  rw [if_neg (by omega)]
  exact keysLoop_keyRecords keys hk

theorem Client_Keys_getkeys (payload : List Byte) (c : Cache)
    (hk : ∀ k ∈ c.Keys, k.length ≤ 65535) (hn : c.Keys.length < 2 ^ 63) :
    Client.Keys (getkeys payload c).1 = .ok c.Keys := by
  simp only [Client.Keys, getkeys, rpcResult, if_pos, bind, Except.bind]
  exact keysDecode_getkeysPayload c.Keys hk hn

/-! ## Agreement of list and map: lemmas -/

theorem mapLookup_eq_none_iff (m : List (Key × Nat)) (key : Key) :
    mapLookup m key = none ↔ key ∉ m.map Prod.fst := by
  induction m with
  | nil => simp [mapLookup]
  | cons p rest ih =>
    obtain ⟨k, e⟩ := p
    by_cases hk : k = key
    · simp [mapLookup, hk]
    · simp only [mapLookup, if_neg hk, ih, List.map_cons, List.mem_cons, not_or]
      constructor
      · intro h
        exact ⟨fun h' => hk h'.symm, h⟩
      · intro h
        exact h.2

theorem mapLookup_of_mem (m : List (Key × Nat)) (hnd : (m.map Prod.fst).Nodup) (key : Key)
    (e : Nat) (h : (key, e) ∈ m) : mapLookup m key = some e := by
  induction m with
  | nil => simp at h
  | cons p rest ih =>
    obtain ⟨k, e'⟩ := p
    simp only [List.map_cons, List.nodup_cons] at hnd
    rcases List.mem_cons.mp h with h1 | h1
    · simp only [Prod.mk.injEq] at h1
      obtain ⟨rfl, rfl⟩ := h1
      simp [mapLookup]
    · have hne : ¬ k = key := by
        intro hk
        subst hk
        exact hnd.1 (List.mem_map.mpr ⟨(k, e), h1, rfl⟩)
      simp only [mapLookup, if_neg hne]
      exact ih hnd.2 h1

theorem mapDelete_of_not_mem (m : List (Key × Nat)) (key : Key)
    (h : key ∉ m.map Prod.fst) : mapDelete m key = m := by
  unfold mapDelete
  rw [List.filter_eq_self]
  intro p hp
  have : p.1 ≠ key := fun hk => h (List.mem_map.mpr ⟨p, hp, hk⟩)
  simpa using this

theorem nodup_keys_mapDelete (m : List (Key × Nat)) (key : Key)
    (hnd : (m.map Prod.fst).Nodup) : ((mapDelete m key).map Prod.fst).Nodup :=
  hnd.sublist ((List.filter_sublist _).map _)

theorem not_mem_keys_mapDelete (m : List (Key × Nat)) (key : Key) :
    key ∉ (mapDelete m key).map Prod.fst := by
  simp [mapDelete, List.mem_map, List.mem_filter]

theorem mem_mapDelete_iff (m : List (Key × Nat)) (key : Key) (p : Key × Nat) :
    p ∈ mapDelete m key ↔ p ∈ m ∧ p.1 ≠ key := by
  simp [mapDelete, List.mem_filter]

theorem perm_snd_mapDelete (m : List (Key × Nat)) (hnd : (m.map Prod.fst).Nodup) (key : Key)
    (e : Nat) (h : (key, e) ∈ m) :
    ((mapDelete m key).map Prod.snd).Perm ((m.map Prod.snd).erase e) := by
  induction m with
  | nil => simp at h
  | cons p rest ih =>
    obtain ⟨k, e'⟩ := p
    simp only [List.map_cons, List.nodup_cons] at hnd
    by_cases hk : k = key
    · subst hk
      have he : e' = e := by
        rcases List.mem_cons.mp h with h1 | h1
        · simp only [Prod.mk.injEq] at h1
          exact h1.2.symm
        · exact absurd (List.mem_map.mpr ⟨(k, e), h1, rfl⟩) hnd.1
      subst he
      have hd : mapDelete ((k, e') :: rest) k = rest := by
        have := mapDelete_of_not_mem rest k hnd.1
        simpa [mapDelete] using this
      rw [hd]
      simp
    · have hin : (key, e) ∈ rest := by
        rcases List.mem_cons.mp h with h1 | h1
        · simp only [Prod.mk.injEq] at h1
          exact absurd h1.1.symm hk
        · exact h1
      have hd : mapDelete ((k, e') :: rest) key = (k, e') :: mapDelete rest key := by
        simp [mapDelete, hk]
      rw [hd]
      have ih' := ih hnd.2 hin
      have hmem : e ∈ rest.map Prod.snd := List.mem_map.mpr ⟨(key, e), hin, rfl⟩
      simp only [List.map_cons]
      by_cases hee : e' = e
      · subst hee
        rw [List.erase_cons_head]
        exact (List.Perm.cons e' ih').trans (List.perm_cons_erase hmem).symm
      · rw [List.erase_cons_tail (by simpa using hee)]
        exact List.Perm.cons e' ih'

theorem deref_set_ne (heap : List entry) (e p : Nat) (x : entry) (h : p ≠ e) :
    deref (heap.set e x) p = deref heap p := by
  simp [deref, List.getD_eq_getElem?_getD, List.getElem?_set_ne (Ne.symm h)]

theorem MoveToFront_perm (l : List Nat) (e : Nat) : (MoveToFront l e).Perm l := by
  unfold MoveToFront
  split
  · rename_i h
    exact (List.perm_cons_erase h).symm
  · exact List.Perm.refl _

theorem WF_of_eq (c c' : Cache) (hl : c'.l = c.l) (hm : c'.m = c.m) (hh : c'.heap = c.heap)
    (h : c.WF) : c'.WF := by
  unfold Cache.WF
  rw [hl, hm, hh]
  exact h

theorem WF_mem_l (c : Cache) (h : c.WF) (key : Key) (e : Nat) (hm : (key, e) ∈ c.m) :
    e ∈ c.l :=
  (h.2.2.1.mem_iff).mpr (List.mem_map.mpr ⟨(key, e), hm, rfl⟩)

theorem WF_mem_m (c : Cache) (h : c.WF) (e : Nat) (he : e ∈ c.l) :
    ((deref c.heap e).key, e) ∈ c.m := by
  obtain ⟨p, hp, hpe⟩ := List.mem_map.mp ((h.2.2.1.mem_iff).mp he)
  obtain ⟨k, e'⟩ := p
  simp only at hpe
  subst hpe
  have := (h.2.2.2 _ hp).2
  simp only at this
  rw [this]
  exact hp

theorem WF_lt (c : Cache) (h : c.WF) (e : Nat) (he : e ∈ c.l) : e < c.heap.length :=
  (h.2.2.2 _ (WF_mem_m c h e he)).1

theorem WF_key_inj (c : Cache) (h : c.WF) (e1 e2 : Nat) (h1 : e1 ∈ c.l) (h2 : e2 ∈ c.l)
    (hk : (deref c.heap e1).key = (deref c.heap e2).key) : e1 = e2 := by
  have m1 := mapLookup_of_mem c.m h.1 _ _ (WF_mem_m c h e1 h1)
  have m2 := mapLookup_of_mem c.m h.1 _ _ (WF_mem_m c h e2 h2)
  rw [hk, m2] at m1
  exact (Option.some.inj m1).symm

theorem WF_NewCache (n : Int) : (NewCache n).WF := by
  refine ⟨?_, ?_, ?_, ?_⟩ <;> simp [NewCache]

theorem WF_MoveToFront (c : Cache) (h : c.WF) (e : Nat) :
    Cache.WF { c with l := MoveToFront c.l e } := by
  obtain ⟨hk, hl, hp, hh⟩ := h
  exact ⟨hk, ((MoveToFront_perm c.l e).nodup_iff).mpr hl, (MoveToFront_perm c.l e).trans hp, hh⟩

theorem WF_Add_hit (c : Cache) (h : c.WF) (ee : Nat) (value : Value) :
    Cache.WF { c with l := MoveToFront c.l ee
                      heap := c.heap.set ee { deref c.heap ee with value := value } } := by
  obtain ⟨hk, hl, hp, hh⟩ := h
  refine ⟨hk, ((MoveToFront_perm c.l ee).nodup_iff).mpr hl,
    (MoveToFront_perm c.l ee).trans hp, ?_⟩
  intro p hpm
  obtain ⟨hlt, hkey⟩ := hh p hpm
  refine ⟨by simpa using hlt, ?_⟩
  by_cases hpe : p.2 = ee
  · have hlt' : ee < c.heap.length := hpe ▸ hlt
    simp only [hpe, deref_set_self _ _ _ hlt']
    rw [← hpe]
    exact hkey
  · simp only [deref_set_ne _ _ _ _ hpe]
    exact hkey

theorem WF_insert (c : Cache) (h : c.WF) (key : Key) (value : Value) (n : Int)
    (hnone : mapLookup c.m key = none) :
    Cache.WF
      { MaxEntries := n
        l := c.heap.length :: c.l
        m := mapInsert c.m key c.heap.length
        heap := c.heap ++ [⟨key, value⟩] } := by
  have hnot : key ∉ c.m.map Prod.fst := (mapLookup_eq_none_iff _ _).mp hnone
  have hins : mapInsert c.m key c.heap.length = (key, c.heap.length) :: c.m := by
    simp [mapInsert, mapDelete_of_not_mem c.m key hnot]
  have hfresh : c.heap.length ∉ c.l := fun hmem => Nat.lt_irrefl _ (WF_lt c h _ hmem)
  obtain ⟨hk, hl, hp, hh⟩ := h
  simp only [hins]
  refine ⟨?_, ?_, ?_, ?_⟩
  · simp only [List.map_cons, List.nodup_cons]
    exact ⟨hnot, hk⟩
  · exact List.nodup_cons.mpr ⟨hfresh, hl⟩
  · simp only [List.map_cons]
    exact List.Perm.cons _ hp
  · intro p hpm
    rcases List.mem_cons.mp hpm with rfl | hpm
    · exact ⟨by simp, by simp [deref_append_length]⟩
    · obtain ⟨hlt, hkey⟩ := hh p hpm
      refine ⟨by simp only [List.length_append, List.length_singleton]; omega, ?_⟩
      simp only [deref_append_lt _ _ _ hlt]
      exact hkey

theorem WF_removeElement (c : Cache) (h : c.WF) (e : Nat) (he : e ∈ c.l) :
    (c.removeElement e).WF := by
  have hmem := WF_mem_m c h e he
  obtain ⟨hk, hl, hp, hh⟩ := h
  refine ⟨nodup_keys_mapDelete _ _ hk, hl.erase e, ?_, ?_⟩
  · exact (hp.erase e).trans (perm_snd_mapDelete c.m hk _ e hmem).symm
  · intro p hpm
    exact hh p (mem_mapDelete _ _ _ hpm)

theorem WF_RemoveOldest (c : Cache) (h : c.WF) : c.RemoveOldest.WF := by
  unfold Cache.RemoveOldest
  cases hb : c.l.getLast? with
  | none => exact h
  | some ele => exact WF_removeElement c h ele (List.mem_of_getLast?_eq_some hb)

theorem WF_Add (c : Cache) (h : c.WF) (key : Key) (value : Value) : (c.Add key value).WF := by
  unfold Cache.Add
  cases hk : mapLookup c.m key with
  | some ee => exact WF_Add_hit c h ee value
  | none =>
    have hw := WF_insert c h key value (c.MaxEntries + 1) hk
    simp only
    split
    · exact WF_RemoveOldest _ hw
    · exact hw

theorem WF_Get (c : Cache) (h : c.WF) (key : Key) : (c.Get key).1.WF := by
  unfold Cache.Get
  cases hk : mapLookup c.m key with
  | some ele => exact WF_MoveToFront c h ele
  | none => exact h

theorem WF_Remove (c : Cache) (h : c.WF) (key : Key) : (c.Remove key).WF := by
  unfold Cache.Remove
  cases hk : mapLookup c.m key with
  | some ele =>
    have he : ele ∈ c.l := WF_mem_l c h key ele (mapLookup_mem _ _ _ hk)
    exact WF_of_eq _ _ rfl rfl rfl (WF_removeElement c h ele he)
  | none => exact h

theorem WF_step (c : Cache) (h : c.WF) (call : Call) : (c.step call).WF := by
  cases call with
  | Add key value => exact WF_Add c h key value
  | Get key => exact WF_Get c h key
  | Remove key => exact WF_Remove c h key
  | RemoveOldest => exact WF_RemoveOldest c h

theorem WF_run (calls : List Call) (c : Cache) (h : c.WF) : (c.run calls).WF := by
  induction calls generalizing c with
  | nil => exact h
  | cons call rest ih => exact ih (c.step call) (WF_step c h call)

theorem WF_reachable (n : Int) (calls : List Call) : ((NewCache n).run calls).WF :=
  WF_run calls (NewCache n) (WF_NewCache n)

/-! ## Presence, stored values and recency order in a well-formed cache -/

theorem mem_Keys_iff (c : Cache) (key : Key) : key ∈ c.Keys ↔ mapLookup c.m key ≠ none := by
  rw [Ne, mapLookup_eq_none_iff, not_not]
  rfl

theorem entries_erase (c : Cache) (h : c.WF) (e : Nat) (he : e ∈ c.l) :
    (c.l.erase e).map (deref c.heap)
      = c.entries.filter (fun x => decide (x.key ≠ (deref c.heap e).key)) := by
  rw [h.2.1.erase_eq_filter, Cache.entries, List.filter_map]
  congr 1
  apply List.filter_congr
  intro x hx
  by_cases hxe : x = e
  · subst hxe
    simp
  · have hkey : (deref c.heap x).key ≠ (deref c.heap e).key :=
      fun hk => hxe (WF_key_inj c h x e hx he hk)
    simp [hxe, hkey]

theorem mem_entries_iff (c : Cache) (h : c.WF) (key : Key) (v : Value) :
    (⟨key, v⟩ : entry) ∈ c.entries ↔
      ∃ e, mapLookup c.m key = some e ∧ (deref c.heap e).value = v := by
  constructor
  · intro hmem
    obtain ⟨e, he, hde⟩ := List.mem_map.mp hmem
    have hm := WF_mem_m c h e he
    rw [hde] at hm
    exact ⟨e, mapLookup_of_mem c.m h.1 _ _ hm, by rw [hde]⟩
  · rintro ⟨e, hl, hv⟩
    have hm := mapLookup_mem _ _ _ hl
    have he : e ∈ c.l := WF_mem_l c h key e hm
    have hk : (deref c.heap e).key = key := (h.2.2.2 _ hm).2
    refine List.mem_map.mpr ⟨e, he, ?_⟩
    rw [← hk, ← hv]

theorem Get_of_lookup (c : Cache) (key : Key) (e : Nat) (h : mapLookup c.m key = some e) :
    c.Get key = ({ c with l := MoveToFront c.l e }, (deref c.heap e).value, true) := by
  simp [Cache.Get, h]

theorem Get_of_not_mem (c : Cache) (key : Key) (h : key ∉ c.Keys) :
    c.Get key = (c, zeroValue, false) := by
  have hn : mapLookup c.m key = none := (mapLookup_eq_none_iff _ _).mpr h
  simp [Cache.Get, hn]

theorem entries_MoveToFront (c : Cache) (h : c.WF) (key : Key) (e : Nat)
    (hl : mapLookup c.m key = some e) :
    (MoveToFront c.l e).map (deref c.heap)
      = ⟨key, (deref c.heap e).value⟩ :: c.entries.filter (fun x => decide (x.key ≠ key)) := by
  have hm := mapLookup_mem _ _ _ hl
  have he : e ∈ c.l := WF_mem_l c h key e hm
  have hk : (deref c.heap e).key = key := (h.2.2.2 _ hm).2
  simp only [MoveToFront, if_pos he, List.map_cons, entries_erase c h e he, hk]
  rw [← hk]

theorem MoveToFront_head (l : List Nat) (e : Nat) : MoveToFront (e :: l) e = e :: l := by
  simp [MoveToFront]

theorem Get_spec_of_WF (c : Cache) (h : c.WF) (key : Key) :
    (∀ v, (⟨key, v⟩ : entry) ∈ c.entries →
      (c.Get key).2 = (v, true) ∧
      (c.Get key).1.entries = ⟨key, v⟩ :: c.entries.filter (fun x => decide (x.key ≠ key)) ∧
      (c.Get key).1.Keys = c.Keys ∧
      (c.Get key).1.Len = c.Len ∧
      (c.Get key).1.MaxEntries = c.MaxEntries ∧
      (c.Get key).1.Get key = ((c.Get key).1, v, true)) ∧
    (key ∈ c.Keys → ∃ v, (⟨key, v⟩ : entry) ∈ c.entries) ∧
    (key ∉ c.Keys → c.Get key = (c, zeroValue, false)) := by
  refine ⟨?_, ?_, Get_of_not_mem c key⟩
  · intro v hv
    obtain ⟨e, hl, hval⟩ := (mem_entries_iff c h key v).mp hv
    have he : e ∈ c.l := WF_mem_l c h key e (mapLookup_mem _ _ _ hl)
    rw [Get_of_lookup c key e hl, hval]
    refine ⟨rfl, ?_, rfl, ?_, rfl, ?_⟩
    · have := entries_MoveToFront c h key e hl
      rw [hval] at this
      exact this
    · simp [Cache.Len, length_MoveToFront]
    · show Cache.Get { c with l := MoveToFront c.l e } key = _
      rw [Get_of_lookup { c with l := MoveToFront c.l e } key e hl, hval]
      have hfront : MoveToFront c.l e = e :: c.l.erase e := by simp [MoveToFront, he]
      simp only [hfront, MoveToFront_head]
  · intro hk
    cases hl : mapLookup c.m key with
    | none => exact absurd hl ((mem_Keys_iff c key).mp hk)
    | some e => exact ⟨_, (mem_entries_iff c h key _).mpr ⟨e, hl, rfl⟩⟩

theorem Remove_spec_of_WF (c : Cache) (h : c.WF) (key : Key) :
    ((c.Remove key).Get key).2 = (zeroValue, false) ∧
    key ∉ (c.Remove key).Keys ∧
    (∀ k v, k ≠ key → (c.Get k).2 = (v, true) → ((c.Remove key).Get k).2 = (v, true)) ∧
    (c.Remove key).entries = c.entries.filter (fun x => decide (x.key ≠ key)) ∧
    (key ∉ c.Keys → c.Remove key = c) := by
  cases hl : mapLookup c.m key with
  | none =>
    have hnot : key ∉ c.Keys := (mapLookup_eq_none_iff _ _).mp hl
    have hrem : c.Remove key = c := by simp [Cache.Remove, hl]
    rw [hrem]
    refine ⟨by rw [Get_of_not_mem c key hnot], hnot, fun k v _ hg => hg, ?_, fun _ => rfl⟩
    symm
    rw [List.filter_eq_self]
    intro x hx
    obtain ⟨e, he, hde⟩ := List.mem_map.mp hx
    have hm := WF_mem_m c h e he
    have hne : x.key ≠ key := by
      intro hk
      rw [hde, hk] at hm
      exact hnot (List.mem_map.mpr ⟨_, hm, rfl⟩)
    simpa using hne
  | some ele =>
    have hm := mapLookup_mem _ _ _ hl
    have he : ele ∈ c.l := WF_mem_l c h key ele hm
    have hk : (deref c.heap ele).key = key := (h.2.2.2 _ hm).2
    have hnot : key ∉ (c.Remove key).Keys := by
      simp only [Cache.Remove, hl, Cache.removeElement, Cache.Keys, hk]
      exact not_mem_keys_mapDelete c.m key
    refine ⟨by rw [Get_of_not_mem _ key hnot], hnot, ?_, ?_, ?_⟩
    · intro k v hne hg
      obtain ⟨e, hle, hv⟩ := Get_hit c k v hg
      simp only [Cache.Remove, hl, Cache.removeElement, hk, Cache.Get,
        mapLookup_mapDelete_ne _ _ _ hne, hle, hv]
    · simp only [Cache.Remove, hl, Cache.removeElement, Cache.entries]
      have := entries_erase c h ele he
      rw [hk] at this
      exact this
    · intro hnk
      exact absurd (List.mem_map.mpr ⟨_, hm, rfl⟩) hnk

theorem agree_of_WF (c : Cache) (h : c.WF) :
    c.Len = c.Keys.length ∧ c.Keys.Nodup ∧
    (∀ k ∈ c.Keys, ∃ e, mapLookup c.m k = some e ∧ e ∈ c.l ∧ (deref c.heap e).key = k ∧
      ∀ e' ∈ c.l, (deref c.heap e').key = k → e' = e) ∧
    (∀ e ∈ c.l, (deref c.heap e).key ∈ c.Keys) ∧
    c.l.Nodup ∧ (c.entries.map entry.key).Nodup := by
  refine ⟨?_, h.1, ?_, ?_, h.2.1, ?_⟩
  · simp only [Cache.Len, Cache.Keys, List.length_map]
    rw [h.2.2.1.length_eq, List.length_map]
  · intro k hk
    cases hl : mapLookup c.m k with
    | none => exact absurd hl ((mem_Keys_iff c k).mp hk)
    | some e =>
      have hm := mapLookup_mem _ _ _ hl
      have he : e ∈ c.l := WF_mem_l c h k e hm
      have hkey : (deref c.heap e).key = k := (h.2.2.2 _ hm).2
      exact ⟨e, rfl, he, hkey, fun e' he' hk' =>
        WF_key_inj c h e' e he' he (hk'.trans hkey.symm)⟩
  · intro e he
    exact List.mem_map.mpr ⟨_, WF_mem_m c h e he, rfl⟩
  · simp only [Cache.entries, List.map_map]
    exact List.Nodup.map_on (fun x hx y hy hxy => WF_key_inj c h x y hx hy hxy) h.2.1

theorem mem_Keys_Add_unbounded (calls : List Call) (key : Key) (value : Value) :
    key ∈ (((NewCache 0).run calls).Add key value).Keys := by
  have h := NoBound_run calls (NewCache 0) NoBound_NewCache
  cases hk : mapLookup ((NewCache 0).run calls).m key with
  | none =>
    rw [Add_of_NoBound _ h key value hk]
    simp [Cache.Keys, mapInsert]
  | some ee =>
    have hm := mapLookup_mem _ _ _ hk
    simp only [Cache.Add, hk, Cache.Keys]
    exact List.mem_map.mpr ⟨_, hm, rfl⟩

/-! ## Key list, removal, agreement, `Get`: the claims -/

/-- C11, at the failing input. On a server whose cache was built by `NewCache(1)`, the `Set` of
key `"a"` with an expiry in the future answers `Success`, and the `Keys()` the client then
decodes from the `GetKeys` response is the empty list: it does not contain `"a"`. The codec
half of the claim holds (`getkeysPayload_eq`, `keysDecode_getkeysPayload`). -/
theorem Keys_after_Set_at_bound_one :
    (set (EncodeItem keyA someValue) (NewCache 1) 1000).map
        (fun r => (r.1, Client.Keys (getkeys [] r.2).1))
      = .ok ({ Code := StatusSuccess, Payload := [] }, .ok []) := by
  decide

/-- C12. In every state reached from `NewCache(n)`: after `Remove(k)`, `Get(k)` misses and `k`
is not among `Keys()`; every other key that was present is present with the same value; the
recency list is the previous one without the entry of `k`, the others in the same order; and
when `k` was not present the cache is left exactly as it was. -/
theorem Cache_Remove_spec (n : Int) (calls : List Call) (key : Key) :
    ((((NewCache n).run calls).Remove key).Get key).2 = (zeroValue, false) ∧
    key ∉ (((NewCache n).run calls).Remove key).Keys ∧
    (∀ k v, k ≠ key → (((NewCache n).run calls).Get k).2 = (v, true) →
      ((((NewCache n).run calls).Remove key).Get k).2 = (v, true)) ∧
    (((NewCache n).run calls).Remove key).entries
      = ((NewCache n).run calls).entries.filter (fun x => decide (x.key ≠ key)) ∧
    (key ∉ ((NewCache n).run calls).Keys →
      ((NewCache n).run calls).Remove key = (NewCache n).run calls) :=
  Remove_spec_of_WF _ (WF_reachable n calls) key

/-- C14. After every sequence of calls applied to `NewCache(n)` the list and the map agree:
`Len()` is the number of map keys, which are pairwise distinct; every map key points to a
linked node whose entry carries that key, and to no other linked node; the key of every linked
node is in the map; no node is linked twice and no two linked nodes carry the same key. -/
theorem list_map_agree (n : Int) (calls : List Call) :
    ((NewCache n).run calls).Len = ((NewCache n).run calls).Keys.length ∧
    ((NewCache n).run calls).Keys.Nodup ∧
    (∀ k ∈ ((NewCache n).run calls).Keys,
      ∃ e, mapLookup ((NewCache n).run calls).m k = some e ∧ e ∈ ((NewCache n).run calls).l ∧
        (deref ((NewCache n).run calls).heap e).key = k ∧
        ∀ e' ∈ ((NewCache n).run calls).l,
          (deref ((NewCache n).run calls).heap e').key = k → e' = e) ∧
    (∀ e ∈ ((NewCache n).run calls).l,
      (deref ((NewCache n).run calls).heap e).key ∈ ((NewCache n).run calls).Keys) ∧
    ((NewCache n).run calls).l.Nodup ∧
    (((NewCache n).run calls).entries.map entry.key).Nodup :=
  agree_of_WF _ (WF_reachable n calls)

/-- C15. In every state reached from `NewCache(n)`: when `k` is present with stored value `v`,
`Get(k)` returns `(v, true)`, the recency list becomes the entry of `k` followed by the other
entries in their previous order, the keys, the length and `MaxEntries` are unchanged, and a
second `Get(k)` returns `(v, true)` again and leaves the cache as it is; every key among
`Keys()` is present with some value; and `Get` of a key that is not present returns the zero
value and `false` and leaves the cache as it is. -/
theorem Cache_Get_spec (n : Int) (calls : List Call) (key : Key) :
    (∀ v, (⟨key, v⟩ : entry) ∈ ((NewCache n).run calls).entries →
      (((NewCache n).run calls).Get key).2 = (v, true) ∧
      (((NewCache n).run calls).Get key).1.entries
        = ⟨key, v⟩ :: ((NewCache n).run calls).entries.filter (fun x => decide (x.key ≠ key)) ∧
      (((NewCache n).run calls).Get key).1.Keys = ((NewCache n).run calls).Keys ∧
      (((NewCache n).run calls).Get key).1.Len = ((NewCache n).run calls).Len ∧
      (((NewCache n).run calls).Get key).1.MaxEntries = ((NewCache n).run calls).MaxEntries ∧
      (((NewCache n).run calls).Get key).1.Get key
        = ((((NewCache n).run calls).Get key).1, v, true)) ∧
    (key ∈ ((NewCache n).run calls).Keys →
      ∃ v, (⟨key, v⟩ : entry) ∈ ((NewCache n).run calls).entries) ∧
    (key ∉ ((NewCache n).run calls).Keys →
      ((NewCache n).run calls).Get key = ((NewCache n).run calls, zeroValue, false)) :=
  Get_spec_of_WF _ (WF_reachable n calls) key

/-! ## Expired entries and expired writes: the claims -/

theorem get_of_hit_expired (c : Cache) (key : Key) (v : Value) (now : Int)
    (hg : (c.Get key).2 = (v, true)) (hexp : now ≥ (v.Expired : Int)) :
    get key c now = ({ Code := StatusNotFound, Payload := [] }, (c.Get key).1) := by
  unfold get
  rcases hc : c.Get key with ⟨c', val, ok⟩
  rw [hc] at hg
  simp only [Prod.mk.injEq] at hg
  obtain ⟨rfl, rfl⟩ := hg
  have hexp' : (val.Expired : Int) ≤ now := hexp
  simp [hc, hexp']

theorem get_of_not_mem (c : Cache) (key : Key) (now : Int) (h : key ∉ c.Keys) :
    get key c now = ({ Code := StatusNotFound, Payload := [] }, c) := by
  unfold get
  simp [Get_of_not_mem c key h]

theorem set_of_expired (payload : List Byte) (c : Cache) (now : Int) (key : Key) (v : Value)
    (hp : ParseItem payload = .ok (key, v)) (hexp : (v.Expired : Int) ≤ now) :
    set payload c now = .ok ({ Code := StatusSuccess, Payload := [] }, c) := by
  simp [set, hp, hexp]

/-- C16, the claim as stated fails. In the cache built by `Add("a")` (expiring at 10) and
`Add("b")`, the `get` handler for `"a"` at time 20 answers `NotFound` and the recency list
afterwards is not the one before: `"a"` has moved in front of `"b"`. -/
theorem get_expired_reorders :
    (get keyA ((NewCache 0).run [.Add keyA ⟨10, [1]⟩, .Add keyB someValue]) 20).1
      = { Code := StatusNotFound, Payload := [] } ∧
    ((NewCache 0).run [.Add keyA ⟨10, [1]⟩, .Add keyB someValue]).entries
      = [⟨keyB, someValue⟩, ⟨keyA, ⟨10, [1]⟩⟩] ∧
    (get keyA ((NewCache 0).run [.Add keyA ⟨10, [1]⟩, .Add keyB someValue]) 20).2.entries
      = [⟨keyA, ⟨10, [1]⟩⟩, ⟨keyB, someValue⟩] ∧
    (get keyA ((NewCache 0).run [.Add keyA ⟨10, [1]⟩, .Add keyB someValue]) 20).2.entries
      ≠ ((NewCache 0).run [.Add keyA ⟨10, [1]⟩, .Add keyB someValue]).entries := by
  decide

/-- C16, amended. In every state reached from `NewCache(n)`, the `get` handler applied to a key
that is present with a value whose `Expired` is at or before `now` answers `NotFound` with an
empty payload and deletes nothing: the keys and the length are unchanged, and the recency list
holds the same entries with the same values, the entry of the key moved to the front and the
others in their previous order. -/
theorem get_expired_keeps_entries (n : Int) (calls : List Call) (key : Key) (v : Value)
    (now : Int) (hv : (⟨key, v⟩ : entry) ∈ ((NewCache n).run calls).entries)
    (hexp : now ≥ (v.Expired : Int)) :
    (get key ((NewCache n).run calls) now).1 = { Code := StatusNotFound, Payload := [] } ∧
    (get key ((NewCache n).run calls) now).2.Keys = ((NewCache n).run calls).Keys ∧
    (get key ((NewCache n).run calls) now).2.Len = ((NewCache n).run calls).Len ∧
    (get key ((NewCache n).run calls) now).2.entries
      = ⟨key, v⟩ :: ((NewCache n).run calls).entries.filter
          (fun x => decide (x.key ≠ key)) := by
  obtain ⟨hg, hent, hkeys, hlen, _, _⟩ :=
    (Get_spec_of_WF _ (WF_reachable n calls) key).1 v hv
  rw [get_of_hit_expired _ key v now hg hexp]
  exact ⟨rfl, hkeys, hlen, hent⟩

/-- Instance of the amended C16: `"a"` expiring at 10, read at time 20, behind `"b"`. -/
theorem get_expired_keeps_entries_witness :
    (get keyA ((NewCache 0).run [.Add keyA ⟨10, [1]⟩, .Add keyB someValue]) 20).1
      = { Code := StatusNotFound, Payload := [] } ∧
    (get keyA ((NewCache 0).run [.Add keyA ⟨10, [1]⟩, .Add keyB someValue]) 20).2.Keys
      = ((NewCache 0).run [.Add keyA ⟨10, [1]⟩, .Add keyB someValue]).Keys ∧
    (get keyA ((NewCache 0).run [.Add keyA ⟨10, [1]⟩, .Add keyB someValue]) 20).2.Len
      = ((NewCache 0).run [.Add keyA ⟨10, [1]⟩, .Add keyB someValue]).Len ∧
    (get keyA ((NewCache 0).run [.Add keyA ⟨10, [1]⟩, .Add keyB someValue]) 20).2.entries
      = ⟨keyA, ⟨10, [1]⟩⟩ :: ((NewCache 0).run
          [.Add keyA ⟨10, [1]⟩, .Add keyB someValue]).entries.filter
            (fun x => decide (x.key ≠ keyA)) :=
  get_expired_keeps_entries 0 [.Add keyA ⟨10, [1]⟩, .Add keyB someValue] keyA ⟨10, [1]⟩ 20
    (by decide) (by decide)

/-- C17, the claim as stated fails. In the cache that holds `"a"` with expiry 100, at time 50
the `set` handler given a well-formed item for `"a"` with expiry 40 answers `Success` and
leaves the cache as it was, so `"a"` is still observable: the `get` handler answers `Success`
and the key list the client decodes contains `"a"`. -/
theorem set_expired_key_still_observable :
    set (EncodeItem keyA ⟨40, [2]⟩) ((NewCache 0).run [.Add keyA ⟨100, [1]⟩]) 50
      = .ok ({ Code := StatusSuccess, Payload := [] },
          (NewCache 0).run [.Add keyA ⟨100, [1]⟩]) ∧
    (get keyA ((NewCache 0).run [.Add keyA ⟨100, [1]⟩]) 50).1
      = { Code := StatusSuccess, Payload := EncodeItem keyA ⟨100, [1]⟩ } ∧
    keyA ∈ ((NewCache 0).run [.Add keyA ⟨100, [1]⟩]).Keys ∧
    Client.Keys (getkeys [] ((NewCache 0).run [.Add keyA ⟨100, [1]⟩])).1 = .ok [keyA] := by
  decide

/-- C17, amended. For every cache state, key and time: the `set` handler given a well-formed
item for the key whose `Expired` is at or before `now` answers `Success` with an empty payload
and leaves the cache as it was; so when the key was not present before the request, the `get`
handler for it on the cache after the request, at the same time, answers `NotFound`, and the
`Keys` of the cache after the request do not contain it. -/
theorem set_expired_not_observable (payload : List Byte) (c : Cache) (now : Int) (key : Key)
    (v : Value) (hp : ParseItem payload = .ok (key, v)) (hexp : (v.Expired : Int) ≤ now)
    (habsent : key ∉ c.Keys) :
    (set payload c now).map (fun r => (r.1, r.2, (get key r.2 now).1, decide (key ∈ r.2.Keys)))
      = .ok ({ Code := StatusSuccess, Payload := [] }, c,
          { Code := StatusNotFound, Payload := [] }, false) := by
  rw [set_of_expired payload c now key v hp hexp]
  simp only [Except.map, get_of_not_mem c key now habsent]
  simp [habsent]

/-- Instance of the amended C17: an expired item for `"b"` sent to a cache that holds `"a"`. -/
theorem set_expired_not_observable_witness :
    (set (EncodeItem keyB ⟨40, [2]⟩) ((NewCache 0).run [.Add keyA ⟨100, [1]⟩]) 50).map
        (fun r => (r.1, r.2, (get keyB r.2 50).1, decide (keyB ∈ r.2.Keys)))
      = .ok ({ Code := StatusSuccess, Payload := [] }, (NewCache 0).run [.Add keyA ⟨100, [1]⟩],
          { Code := StatusNotFound, Payload := [] }, false) :=
  set_expired_not_observable (EncodeItem keyB ⟨40, [2]⟩)
    ((NewCache 0).run [.Add keyA ⟨100, [1]⟩]) 50 keyB ⟨40, [2]⟩ (by decide) (by decide)
    (by decide)

/-! ## The bounded cache and the pool: the claims -/

theorem int64_of_range (n : Int) (hlo : -9223372036854775808 ≤ n)
    (hhi : n < 9223372036854775808) : int64 n = n := by
  unfold int64
  omega

theorem Wrapping_removeElement_eq (c : Cache) (e : Nat)
    (hlo : -9223372036854775807 ≤ c.MaxEntries) (hhi : c.MaxEntries ≤ 9223372036854775808) :
    Wrapping.removeElement c e = c.removeElement e := by
  simp only [Wrapping.removeElement, Cache.removeElement,
    int64_of_range (c.MaxEntries - 1) (by omega) (by omega)]

theorem Wrapping_RemoveOldest_eq (c : Cache)
    (hlo : -9223372036854775807 ≤ c.MaxEntries) (hhi : c.MaxEntries ≤ 9223372036854775808) :
    Wrapping.RemoveOldest c = c.RemoveOldest := by
  unfold Wrapping.RemoveOldest Cache.RemoveOldest
  cases c.l.getLast? with
  | none => rfl
  | some ele => exact Wrapping_removeElement_eq c ele hlo hhi

theorem Wrapping_Add_eq (c : Cache) (key : Key) (value : Value)
    (hlo : -9223372036854775808 ≤ c.MaxEntries) (hhi : c.MaxEntries < 9223372036854775807) :
    Wrapping.Add c key value = c.Add key value := by
  unfold Wrapping.Add Cache.Add
  cases mapLookup c.m key with
  | some ee => rfl
  | none =>
    simp only [int64_of_range (c.MaxEntries + 1) (by omega) (by omega)]
    split
    · exact Wrapping_RemoveOldest_eq _ (by simp only; omega) (by simp only; omega)
    · rfl

theorem Wrapping_Remove_eq (c : Cache) (key : Key)
    (hlo : -9223372036854775806 ≤ c.MaxEntries) (hhi : c.MaxEntries ≤ 9223372036854775808) :
    Wrapping.Remove c key = c.Remove key := by
  unfold Wrapping.Remove Cache.Remove
  cases mapLookup c.m key with
  | none => rfl
  | some ele =>
    simp only [Wrapping_removeElement_eq c ele (by omega) hhi]
    have hm : (c.removeElement ele).MaxEntries = c.MaxEntries - 1 := rfl
    rw [int64_of_range ((c.removeElement ele).MaxEntries - 1) (by rw [hm]; omega)
      (by rw [hm]; omega)]

/-- The methods with the wrapping counter are the methods with the counter in `Int` on every
call made while `MaxEntries` is between `MinInt64 + 2` and `MaxInt64 - 1`. -/
theorem Wrapping_step_eq (c : Cache) (call : Call)
    (hlo : -9223372036854775806 ≤ c.MaxEntries) (hhi : c.MaxEntries < 9223372036854775807) :
    Wrapping.step c call = c.step call := by
  cases call with
  | Add key value => exact Wrapping_Add_eq c key value (by omega) hhi
  | Get key => rfl
  | Remove key => exact Wrapping_Remove_eq c key hlo (by omega)
  | RemoveOldest => exact Wrapping_RemoveOldest_eq c (by omega) (by omega)

theorem Wrapping_run_of_EmptyAt (N : Int) (hN : 0 < N) (hmax : N < 9223372036854775807)
    (calls : List Call) (c : Cache) (h : c.EmptyAt N) :
    Wrapping.run c calls = c.run calls := by
  induction calls generalizing c with
  | nil => rfl
  | cons call rest ih =>
    have hM : c.MaxEntries = N := h.2.2
    have hstep : Wrapping.step c call = c.step call :=
      Wrapping_step_eq c call (by omega) (by omega)
    show Wrapping.run (Wrapping.step c call) rest = (c.step call).run rest
    rw [hstep]
    exact ih (c.step call) (EmptyAt_step N hN c h call)

/-- C19, the claim as stated fails. At the bound `N = 2^63 - 1`, the largest `int`, the
increment in `Add` wraps `MaxEntries` to `-2^63`, the test `Len() < MaxEntries` is false and the
entry stays: after `Add("a")` on `NewCache(2^63 - 1)` the length is 1, `Keys()` is `["a"]`,
`Get("a")` hits and `MaxEntries` is not `N`. -/
theorem bounded_cache_keeps_entry_at_MaxInt64 :
    (Wrapping.run (NewCache 9223372036854775807) [.Add keyA someValue]).Len = 1 ∧
    (Wrapping.run (NewCache 9223372036854775807) [.Add keyA someValue]).Keys = [keyA] ∧
    ((Wrapping.run (NewCache 9223372036854775807) [.Add keyA someValue]).Get keyA).2
      = (someValue, true) ∧
    (Wrapping.run (NewCache 9223372036854775807) [.Add keyA someValue]).MaxEntries
      = -9223372036854775808 := by
  decide

/-- C19, amended. For a bound `N` with `0 < N < 2^63 - 1`, after every call of every sequence
applied to `NewCache(N)` the cache is empty: `Len()` is 0, `Keys()` is empty, every `Get` misses
and `MaxEntries` is `N`; and `Add` of any key is the insertion of the key (one linked node, one
map pair, `MaxEntries` at `N + 1`) followed by `RemoveOldest`, which leaves nothing linked and
nothing mapped. The counter is the 64-bit one. -/
theorem bounded_cache_always_empty (N : Int) (hN : 0 < N) (hmax : N < 2 ^ 63 - 1)
    (calls : List Call) (i : Nat) :
    (Wrapping.run (NewCache N) (calls.take i)).Len = 0 ∧
    (Wrapping.run (NewCache N) (calls.take i)).Keys = [] ∧
    (∀ k, ((Wrapping.run (NewCache N) (calls.take i)).Get k).2 = (zeroValue, false)) ∧
    (Wrapping.run (NewCache N) (calls.take i)).MaxEntries = N ∧
    (∀ k v,
      Wrapping.Add (Wrapping.run (NewCache N) (calls.take i)) k v
        = Wrapping.RemoveOldest
            { MaxEntries := N + 1
              l := [(Wrapping.run (NewCache N) (calls.take i)).heap.length]
              m := [(k, (Wrapping.run (NewCache N) (calls.take i)).heap.length)]
              heap := (Wrapping.run (NewCache N) (calls.take i)).heap ++ [⟨k, v⟩] } ∧
      (Wrapping.Add (Wrapping.run (NewCache N) (calls.take i)) k v).l = [] ∧
      (Wrapping.Add (Wrapping.run (NewCache N) (calls.take i)) k v).m = [] ∧
      (Wrapping.Add (Wrapping.run (NewCache N) (calls.take i)) k v).MaxEntries = N) := by
  have hmax' : N < 9223372036854775807 := by
    have h63 : (2 : Int) ^ 63 = 9223372036854775808 := by norm_num
    omega
  rw [Wrapping_run_of_EmptyAt N hN hmax' (calls.take i) (NewCache N) (EmptyAt_NewCache N)]
  have h := EmptyAt_run N hN (calls.take i) (NewCache N) (EmptyAt_NewCache N)
  have hadd := Add_of_EmptyAt N hN _ h
  obtain ⟨hl, hm, hM⟩ := h
  refine ⟨by simp [Cache.Len, hl], by simp [Cache.Keys, hm], ?_, hM, ?_⟩
  · intro k
    simp [Cache.Get, hm, mapLookup]
  · intro k v
    have hw : Wrapping.Add ((NewCache N).run (calls.take i)) k v
        = ((NewCache N).run (calls.take i)).Add k v :=
      Wrapping_Add_eq _ k v (by omega) (by omega)
    refine ⟨?_, ?_, ?_, ?_⟩
    · have hcond : (N + 1 ≠ 0) ∧
          ((([((NewCache N).run (calls.take i)).heap.length] : List Nat).length : Int)
            < N + 1) := by
        constructor
        · omega
        · simp only [List.length_singleton, Nat.cast_one]
          omega
      unfold Wrapping.Add
      simp only [hl, hm, hM, mapLookup, mapInsert, mapDelete, List.filter_nil,
        int64_of_range (N + 1) (by omega) (by omega), if_pos hcond]
    · rw [hw, hadd]
      exact hl
    · rw [hw, hadd]
      exact hm
    · rw [hw, hadd]
      exact hM

/-- Instance of the amended C19: bound 2, the four calls of the eviction scenario. -/
theorem bounded_cache_always_empty_witness :
    (Wrapping.run (NewCache 2) (evictionCalls.take 4)).Len = 0 ∧
    (Wrapping.run (NewCache 2) (evictionCalls.take 4)).Keys = [] ∧
    (∀ k, ((Wrapping.run (NewCache 2) (evictionCalls.take 4)).Get k).2 = (zeroValue, false)) ∧
    (Wrapping.run (NewCache 2) (evictionCalls.take 4)).MaxEntries = 2 :=
  ⟨(bounded_cache_always_empty 2 (by decide) (by decide) evictionCalls 4).1,
    (bounded_cache_always_empty 2 (by decide) (by decide) evictionCalls 4).2.1,
    (bounded_cache_always_empty 2 (by decide) (by decide) evictionCalls 4).2.2.1,
    (bounded_cache_always_empty 2 (by decide) (by decide) evictionCalls 4).2.2.2.1⟩

theorem int32_succ_pred (x : Int) (hlo : -2147483648 ≤ x) (hhi : x < 2147483648) :
    int32 (int32 (x + 1) + -1) = x := by
  unfold int32
  omega

theorem pool_get_error_currentConns (p : pool) (dial : Except Fault Nat) (now : Int)
    (w : WaitOutcome) (hlo : -2147483648 ≤ p.currentConns) (hhi : p.currentConns < 2147483648)
    (e : Fault) (herr : (p.get dial now w).1 = .error e) :
    (p.get dial now w).2.currentConns = p.currentConns ∨
      (dial = .error e ∧ (p.get dial now w).2.currentConns = int32 (p.currentConns + 1)) := by
  unfold pool.get at herr ⊢
  by_cases hc : p.closed = 1
  · simp [hc]
  · simp only [if_neg hc] at herr ⊢
    cases hch : p.connCh with
    | cons conn rest => simp [hch] at herr
    | nil =>
      simp only [hch] at herr ⊢
      by_cases hcc : p.connChClosed = true
      · simp [hcc]
      · simp only [hcc] at herr ⊢
        by_cases hnv : int32 (p.currentConns + 1) < p.maxConns
        · simp only [Bool.false_eq_true, if_false, if_pos hnv] at herr ⊢
          cases dial with
          | error err =>
            simp only [Except.error.injEq] at herr
            right
            exact ⟨by rw [herr], rfl⟩
          | ok conn => simp at herr
        · simp only [Bool.false_eq_true, if_false, if_neg hnv] at herr ⊢
          left
          cases w <;> simp [int32_succ_pred _ hlo hhi]

/-- C13, at the failing input. On a fresh pool with `max_conns = 1`, nothing idle and a dial
that would succeed, the first `pool.get` does not dial: it raises `currentConns` to 1, finds
`1 < 1` false, lowers it again, waits, and returns the error `all connections are used` when
the timer fires; the pool is left as it was, so every later borrow fails the same way. -/
theorem first_borrow_fails_at_max_conns_one :
    ((newPool 5 1 0).get (.ok 7) 1000 .timer).1
      = .error (.error "all connections are used") ∧
    ((newPool 5 1 0).get (.ok 7) 1000 .timer).2 = newPool 5 1 0 := by
  decide

/-- C18, at the failing input. At time 1000 the reaper pulls a connection last used at time
1000, newer than `now - 5`: with 5 connections in flight and `max_idle_conns = 5` the
connection is closed, and with 1 in flight it is neither returned nor closed; it is returned
only when `last_used` is later than `now + 5`. -/
theorem reaper_closes_recently_used :
    (pool.runWake { newPool 5 10 0 with currentConns := 5, connCh := [⟨7, 1000⟩] } 1000).connCh
      = [] ∧
    (pool.runWake { newPool 5 10 0 with currentConns := 5, connCh := [⟨7, 1000⟩] }
      1000).closedConns = [7] ∧
    (pool.runWake { newPool 5 10 0 with currentConns := 1, connCh := [⟨7, 1000⟩] } 1000).connCh
      = [] ∧
    (pool.runWake { newPool 5 10 0 with currentConns := 1, connCh := [⟨7, 1000⟩] }
      1000).closedConns = [] ∧
    (pool.runWake { newPool 5 10 0 with currentConns := 5, connCh := [⟨7, 1006⟩] } 1000).connCh
      = [⟨7, 1006⟩] := by
  decide

/-- C20, at the failing input. On a fresh pool with `max_conns = 10`, a `pool.get` whose dial
fails returns the dial error and leaves `currentConns` at 1, where it was 0 before the call.
The two other error returns leave the counter as it was (`pool_get_error_currentConns`). -/
theorem failed_dial_raises_currentConns :
    ((newPool 5 10 0).get (.error (.error "connection refused")) 1000 .timer).1
      = .error (.error "connection refused") ∧
    (newPool 5 10 0).currentConns = 0 ∧
    ((newPool 5 10 0).get (.error (.error "connection refused")) 1000 .timer).2.currentConns
      = 1 := by
  decide

/-! ## Instances of the claims on the cache holding `"b"` in front of `"a"` -/

/-- Instance of C12: removing `"a"` from the cache holding `"b"` and `"a"` leaves `"b"` with
its value, and removing the absent `"c"` changes nothing. -/
theorem Cache_Remove_spec_witness :
    ((((NewCache 0).run [.Add keyA someValue, .Add keyB someValue]).Remove keyA).Get keyA).2
      = (zeroValue, false) ∧
    keyA ∉ (((NewCache 0).run [.Add keyA someValue, .Add keyB someValue]).Remove keyA).Keys ∧
    ((((NewCache 0).run [.Add keyA someValue, .Add keyB someValue]).Remove keyA).Get keyB).2
      = (someValue, true) ∧
    ((NewCache 0).run [.Add keyA someValue, .Add keyB someValue]).Remove keyC
      = (NewCache 0).run [.Add keyA someValue, .Add keyB someValue] :=
  ⟨(Cache_Remove_spec 0 [.Add keyA someValue, .Add keyB someValue] keyA).1,
    (Cache_Remove_spec 0 [.Add keyA someValue, .Add keyB someValue] keyA).2.1,
    (Cache_Remove_spec 0 [.Add keyA someValue, .Add keyB someValue] keyA).2.2.1 keyB someValue
      (by decide) (by decide),
    (Cache_Remove_spec 0 [.Add keyA someValue, .Add keyB someValue] keyC).2.2.2.2
      (by decide)⟩

/-- Instance of C14: in the cache holding `"b"` and `"a"` the length is the number of keys and
the key `"a"` points to a linked node that carries `"a"`. -/
theorem list_map_agree_witness :
    ((NewCache 0).run [.Add keyA someValue, .Add keyB someValue]).Len
      = ((NewCache 0).run [.Add keyA someValue, .Add keyB someValue]).Keys.length ∧
    ∃ e, mapLookup ((NewCache 0).run [.Add keyA someValue, .Add keyB someValue]).m keyA
        = some e ∧
      e ∈ ((NewCache 0).run [.Add keyA someValue, .Add keyB someValue]).l ∧
      (deref ((NewCache 0).run [.Add keyA someValue, .Add keyB someValue]).heap e).key
        = keyA :=
  ⟨(list_map_agree 0 [.Add keyA someValue, .Add keyB someValue]).1,
    ((list_map_agree 0 [.Add keyA someValue, .Add keyB someValue]).2.2.1 keyA
      (by decide)).imp (fun _ h => ⟨h.1, h.2.1, h.2.2.1⟩)⟩

/-- Instance of C15: in the cache holding `"b"` in front of `"a"`, `Get("a")` returns the
stored value and puts `"a"` in front of `"b"`; `Get("c")` misses and changes nothing. -/
theorem Cache_Get_spec_witness :
    (((NewCache 0).run [.Add keyA someValue, .Add keyB someValue]).Get keyA).2
      = (someValue, true) ∧
    (((NewCache 0).run [.Add keyA someValue, .Add keyB someValue]).Get keyA).1.entries
      = ⟨keyA, someValue⟩ ::
          ((NewCache 0).run [.Add keyA someValue, .Add keyB someValue]).entries.filter
            (fun x => decide (x.key ≠ keyA)) ∧
    ((NewCache 0).run [.Add keyA someValue, .Add keyB someValue]).Get keyC
      = ((NewCache 0).run [.Add keyA someValue, .Add keyB someValue], zeroValue, false) :=
  ⟨((Cache_Get_spec 0 [.Add keyA someValue, .Add keyB someValue] keyA).1 someValue
      (by decide)).1,
    ((Cache_Get_spec 0 [.Add keyA someValue, .Add keyB someValue] keyA).1 someValue
      (by decide)).2.1,
    (Cache_Get_spec 0 [.Add keyA someValue, .Add keyB someValue] keyC).2.2 (by decide)⟩

end Tcache
